import Mathlib

set_option maxHeartbeats 1000000
set_option maxRecDepth 10000

/-!
Shallow embedding of the megahit storage/traversal core:
the partitioned binary edge store (EdgeWriter / EdgeReader, from the edge I/O header)
and the unitig-graph vertex-adapter subsystem (from src/assembly/unitig_graph.h),
together with theorems settling the frozen claims about them.

Machine words (uint32_t) are modelled as Nat: the store only copies words verbatim,
so no arithmetic overflow is ever observable.  Fatal assertions and undefined
out-of-range vector accesses are modelled by Option (none = the process dies).
-/

-- ========== generic list helpers ==========

abbrev Word := Nat

/-- In-place update of a vector element, v[i] = f(v[i]); out-of-range is a no-op
(reachable states only ever use in-range indices). -/
def listModify {α : Type} (l : List α) (i : Nat) (f : α → α) : List α :=
  match l, i with
  | [], _ => []
  | x :: xs, 0 => f x :: xs
  | x :: xs, i + 1 => x :: listModify xs i f

/-- Accumulation fs[i] += v at an int index, as done by EdgeReader::read_info with
fs = file_sizes_ and i = p_rec_[i].thread_id.  The only out-of-range index a real
writer can produce is -1, and only with v = 0 (unowned buckets have no records),
so out-of-range is modelled as a no-op. -/
def listAddAt (l : List Nat) (i : Int) (v : Nat) : List Nat :=
  if 0 ≤ i then listModify l i.toNat (fun x => x + v) else l

/-- Sum of f over 0, 1, ..., n-1. -/
def sumOver (n : Nat) (f : Nat → Nat) : Nat := ((List.range n).map f).sum

/-- The cnt fixed-width records of wpe words each found in the word stream mm
starting at word offset off: exactly what the reader pointer walk produces. -/
def readRun (mm : List Word) (wpe : Nat) : Nat → Nat → List (List Word)
  | _, 0 => []
  | off, cnt + 1 => (mm.drop off).take wpe :: readRun mm wpe (off + wpe) cnt

-- ========== edge store: data model ==========

/-- Translated from the source: PartitionRecord { int thread_id; long long
starting_offset; long long total_number; } with default (-1, 0, 0).
The two counters are written only with non-negative values, so they are Nat here. -/
structure PartitionRecord where
  thread_id : Int
  starting_offset : Nat
  total_number : Nat
deriving DecidableEq, Repr

def PartitionRecord.init : PartitionRecord := ⟨-1, 0, 0⟩

instance : Inhabited PartitionRecord := ⟨PartitionRecord.init⟩

/-- The metadata file written by EdgeWriter::destroy and parsed by
EdgeReader::read_info.  The fixed line format round-trips these fields exactly,
so the file is modelled by the parsed structure itself. -/
structure EdgeInfo where
  kmer_size : Nat
  words_per_edge : Nat
  num_threads : Nat
  num_bucket : Nat
  num_edges : Nat
  bucket_recs : List PartitionRecord
  unsorted_counts : List Nat
deriving DecidableEq, Repr

/-- Translated from the source: EdgeWriter state.  file_contents models the byte
stream written to each per-thread file (and persists after destroy, like the files
on disk); info_file models the metadata file on disk. -/
structure EdgeWriter where
  kmer_size : Nat
  words_per_edge : Nat
  num_threads : Nat
  num_buckets : Nat
  unsorted : Bool
  num_unsorted_edges : List Nat
  file_contents : List (List Word)
  cur_bucket : List Int
  cur_num_edges : List Nat
  p_rec : List PartitionRecord
  is_opened : Bool
  info_file : Option EdgeInfo
deriving DecidableEq, Repr

/-- Default-constructed writer: the constructor sets only unsorted_ = false and
is_opened_ = false; uninitialized scalars are 0 here, and the usage protocol
(set_kmer_size, set_num_threads, set_num_buckets / set_unsorted, init_files)
assigns them before use. -/
def EdgeWriter.new : EdgeWriter :=
  { kmer_size := 0, words_per_edge := 0, num_threads := 0, num_buckets := 0,
    unsorted := false, num_unsorted_edges := [], file_contents := [],
    cur_bucket := [], cur_num_edges := [], p_rec := [], is_opened := false,
    info_file := none }

/-- DivCeiling from utils: ceiling division (x + y - 1) / y on positive ints. -/
def DivCeiling (x y : Nat) : Nat := (x + y - 1) / y

def EdgeWriter.set_kmer_size (w : EdgeWriter) (k : Nat) : EdgeWriter :=
  { w with kmer_size := k, words_per_edge := DivCeiling ((k + 1) * 2 + 16) 32 }

def EdgeWriter.set_num_threads (w : EdgeWriter) (n : Nat) : EdgeWriter :=
  { w with num_threads := n }

def EdgeWriter.set_num_buckets (w : EdgeWriter) (b : Nat) : EdgeWriter :=
  { w with num_buckets := b }

def EdgeWriter.set_unsorted (w : EdgeWriter) : EdgeWriter :=
  { w with num_buckets := 0, p_rec := [], unsorted := true,
           num_unsorted_edges := List.replicate w.num_threads 0 }

/-- init_files: asserts not already opened; opens one file per thread and sizes the
bookkeeping vectors (the writer is fresh, so resize-from-empty is replicate). -/
def EdgeWriter.init_files (w : EdgeWriter) : Option EdgeWriter :=
  if w.is_opened then none
  else some { w with
    file_contents := List.replicate w.num_threads [],
    cur_bucket := List.replicate w.num_threads (-1 : Int),
    cur_num_edges := List.replicate w.num_threads 0,
    p_rec := List.replicate w.num_buckets PartitionRecord.init,
    is_opened := true }

/-- write(edge_ptr, bucket, tid): if the bucket differs from the thread current
bucket, assert it is unowned and claim it (owner tid, starting offset = the thread
current record count); then append words_per_edge words to the thread file and
bump the thread counter and the bucket total.  A failed assertion, or an
out-of-range index (undefined behaviour in C++), is none. -/
def EdgeWriter.write (w : EdgeWriter) (edge : List Word) (bucket : Nat) (tid : Nat) :
    Option EdgeWriter :=
  if bucket < w.p_rec.length ∧ tid < w.cur_bucket.length then
    (if (bucket : Int) ≠ w.cur_bucket.getD tid (-1) then
       (if (w.p_rec.getD bucket PartitionRecord.init).thread_id = -1 then
          some { w with
            p_rec := listModify w.p_rec bucket (fun pr =>
              { pr with thread_id := (tid : Int),
                        starting_offset := w.cur_num_edges.getD tid 0 }),
            cur_bucket := listModify w.cur_bucket tid (fun _ => (bucket : Int)) }
        else none)
     else some w).map (fun w1 =>
      { w1 with
        file_contents := listModify w1.file_contents tid
          (fun f => f ++ edge.take w1.words_per_edge),
        cur_num_edges := listModify w1.cur_num_edges tid (fun c => c + 1),
        p_rec := listModify w1.p_rec bucket
          (fun pr => { pr with total_number := pr.total_number + 1 }) })
  else none

/-- write_unsorted(edge_ptr, tid): append with no bucket bookkeeping. -/
def EdgeWriter.write_unsorted (w : EdgeWriter) (edge : List Word) (tid : Nat) :
    Option EdgeWriter :=
  if tid < w.num_unsorted_edges.length then
    some { w with
      file_contents := listModify w.file_contents tid
        (fun f => f ++ edge.take w.words_per_edge),
      num_unsorted_edges := listModify w.num_unsorted_edges tid (fun c => c + 1) }
  else none

/-- destroy: when opened, close the files, total the record counts (bucket totals
when sorted, per-thread totals when unsorted), write the metadata file, clear the
bookkeeping vectors and mark closed; otherwise do nothing.  The data already
written to the per-thread files persists on disk. -/
def EdgeWriter.destroy (w : EdgeWriter) : EdgeWriter :=
  if w.is_opened then
    let num_edges :=
      if !w.unsorted then (w.p_rec.map PartitionRecord.total_number).sum
      else w.num_unsorted_edges.sum
    { w with
      info_file := some ⟨w.kmer_size, w.words_per_edge, w.num_threads,
        w.num_buckets, num_edges, w.p_rec, w.num_unsorted_edges⟩,
      cur_bucket := [], cur_num_edges := [], p_rec := [], is_opened := false }
  else w

-- ========== edge store: reader ==========

/-- Translated from the source: EdgeReader state.  mmaps holds the mapped word
streams (file_sizes[i] * words_per_edge words of file i); cur_ptr is the read
pointer as a (file index, word offset) pair. -/
structure EdgeReader where
  kmer_size : Nat
  words_per_edge : Nat
  num_files : Nat
  num_buckets : Nat
  num_edges : Nat
  p_rec : List PartitionRecord
  file_sizes : List Nat
  mmaps : List (List Word)
  cur_bucket : Int
  cur_file_num : Int
  cur_cnt : Nat
  cur_vol : Nat
  cur_ptr : Nat × Nat
  is_opened : Bool
deriving DecidableEq, Repr

/-- Default-constructed reader: only is_opened_ = false is set; the rest is
assigned by read_info and init_files before use. -/
def EdgeReader.new : EdgeReader :=
  { kmer_size := 0, words_per_edge := 0, num_files := 0, num_buckets := 0,
    num_edges := 0, p_rec := [], file_sizes := [], mmaps := [],
    cur_bucket := 0, cur_file_num := 0, cur_cnt := 0, cur_vol := 0,
    cur_ptr := (0, 0), is_opened := false }

/-- read_info: parse the metadata in fixed field order.  The reader scans exactly
num_bucket partition records and, only when num_bucket = 0, one per-file count for
each of num_threads files; a file with fewer lines fails the fscanf asserts (none).
file_sizes accumulates bucket totals per owning thread, and is overwritten by the
per-file counts in unsorted mode. -/
def EdgeReader.read_info (r : EdgeReader) (info : EdgeInfo) : Option EdgeReader :=
  if info.bucket_recs.length = info.num_bucket ∧
     (info.num_bucket = 0 → info.num_threads ≤ info.unsorted_counts.length) then
    some { r with
      kmer_size := info.kmer_size,
      words_per_edge := info.words_per_edge,
      num_files := info.num_threads,
      num_buckets := info.num_bucket,
      num_edges := info.num_edges,
      p_rec := info.bucket_recs,
      file_sizes :=
        if info.num_bucket = 0 then
          (List.range info.num_threads).map (fun i => info.unsorted_counts.getD i 0)
        else
          info.bucket_recs.foldl
            (fun fs pr => listAddAt fs pr.thread_id pr.total_number)
            (List.replicate info.num_threads 0) }
  else none

def EdgeReader.is_unsorted (r : EdgeReader) : Bool := r.num_buckets == 0

/-- init_files: asserts not opened; maps each per-thread file in full
(file_sizes[i] * words_per_edge words) and resets the cursor; cur_file_num is
initialized only in unsorted mode, exactly as in the source. -/
def EdgeReader.init_files (r : EdgeReader) (disk : List (List Word)) :
    Option EdgeReader :=
  if r.is_opened then none
  else some { r with
    mmaps := (List.range r.num_files).map
      (fun i => (disk.getD i []).take (r.file_sizes.getD i 0 * r.words_per_edge)),
    cur_cnt := 0, cur_vol := 0, cur_bucket := -1,
    cur_file_num := if r.num_buckets = 0 then -1 else r.cur_file_num,
    is_opened := true }

/-- Advance the read pointer by one record and yield the record under it:
the ++cur_cnt_; cur_ptr_ += words_per_edge_; return cur_ptr_ - words_per_edge_
tail shared by both pull methods. -/
def EdgeReader.emitEdge (r : EdgeReader) : Option (List Word) × EdgeReader :=
  (some ((r.mmaps.getD r.cur_ptr.1 []).drop r.cur_ptr.2 |>.take r.words_per_edge),
   { r with cur_cnt := r.cur_cnt + 1,
            cur_ptr := (r.cur_ptr.1, r.cur_ptr.2 + r.words_per_edge) })

/-- The combined effect of the two nested while loops in NextSortedEdge: starting
at bucket b, skip buckets that have no owning thread (inner loop) or a zero total
(outer loop re-entry), returning the first emitting bucket, if any. -/
def findSortedBucketGo (p : List PartitionRecord) (n : Nat) :
    Nat → Nat → Option Nat
  | 0, _ => none
  | fuel + 1, b =>
    if b < n then
      if (p.getD b PartitionRecord.init).thread_id < 0 ∨
          (p.getD b PartitionRecord.init).total_number = 0 then
        findSortedBucketGo p n fuel (b + 1)
      else some b
    else none

def findSortedBucket (p : List PartitionRecord) (n : Nat) (b : Nat) : Option Nat :=
  findSortedBucketGo p n (n - b) b

/-- NextSortedEdge: records grouped by ascending bucket id, each bucket walked as a
contiguous run in the owning thread mapped file; null (none) once exhausted.
When the loop runs off the end, cur_bucket_ has been incremented to exactly
num_buckets_, which the first check catches on every later call. -/
def EdgeReader.NextSortedEdge (r : EdgeReader) : Option (List Word) × EdgeReader :=
  if (r.num_buckets : Int) ≤ r.cur_bucket then (none, r)
  else if r.cur_vol ≤ r.cur_cnt then
    match findSortedBucket r.p_rec r.num_buckets (r.cur_bucket + 1).toNat with
    | none => (none, { r with cur_bucket := (r.num_buckets : Int) })
    | some b =>
      let pr := r.p_rec.getD b PartitionRecord.init
      EdgeReader.emitEdge { r with
        cur_bucket := (b : Int), cur_cnt := 0, cur_vol := pr.total_number,
        cur_ptr := (pr.thread_id.toNat, r.words_per_edge * pr.starting_offset) }
  else EdgeReader.emitEdge r

/-- The while loop of NextUnsortedEdge: starting at file f, skip empty files,
returning the first file with records, if any. -/
def findUnsortedFileGo (sizes : List Nat) (n : Nat) : Nat → Nat → Option Nat
  | 0, _ => none
  | fuel + 1, f =>
    if f < n then
      if sizes.getD f 0 = 0 then findUnsortedFileGo sizes n fuel (f + 1)
      else some f
    else none

def findUnsortedFile (sizes : List Nat) (n : Nat) (f : Nat) : Option Nat :=
  findUnsortedFileGo sizes n (n - f) f

/-- NextUnsortedEdge: records by ascending file index, each file emitted in full in
write order; same sentinel convention as the sorted walk. -/
def EdgeReader.NextUnsortedEdge (r : EdgeReader) : Option (List Word) × EdgeReader :=
  if (r.num_files : Int) ≤ r.cur_file_num then (none, r)
  else if r.cur_vol ≤ r.cur_cnt then
    match findUnsortedFile r.file_sizes r.num_files (r.cur_file_num + 1).toNat with
    | none => (none, { r with cur_file_num := (r.num_files : Int) })
    | some f =>
      EdgeReader.emitEdge { r with
        cur_file_num := (f : Int), cur_cnt := 0,
        cur_vol := r.file_sizes.getD f 0, cur_ptr := (f, 0) }
  else EdgeReader.emitEdge r

/-- destroy: when opened, unmap and close everything and clear the bookkeeping;
otherwise do nothing. -/
def EdgeReader.destroy (r : EdgeReader) : EdgeReader :=
  if r.is_opened then
    { r with file_sizes := [], mmaps := [], is_opened := false }
  else r

-- ========== edge store: runs and specifications ==========

/-- One sorted-mode write call: write(edge, bucket, tid). -/
structure WriteOp where
  edge : List Word
  bucket : Nat
  tid : Nat
deriving DecidableEq, Repr

/-- One unsorted-mode write call: write_unsorted(edge, tid). -/
structure UWriteOp where
  edge : List Word
  tid : Nat
deriving DecidableEq, Repr

/-- Run a sequence of write calls; none as soon as one dies. -/
def runWrites (w : EdgeWriter) : List WriteOp → Option EdgeWriter
  | [] => some w
  | op :: ops => (w.write op.edge op.bucket op.tid).bind (fun w1 => runWrites w1 ops)

/-- Run a sequence of write_unsorted calls. -/
def runUnsorted (w : EdgeWriter) : List UWriteOp → Option EdgeWriter
  | [] => some w
  | op :: ops => (w.write_unsorted op.edge op.tid).bind (fun w1 => runUnsorted w1 ops)

/-- The records written to bucket b, in write order, truncated to wpe words each
(fwrite copies exactly words_per_edge words). -/
def bucketRecords (ops : List WriteOp) (wpe b : Nat) : List (List Word) :=
  (ops.filter (fun op => op.bucket = b)).map (fun op => op.edge.take wpe)

/-- The records written by thread t, in write order. -/
def threadRecords (ops : List WriteOp) (wpe t : Nat) : List (List Word) :=
  (ops.filter (fun op => op.tid = t)).map (fun op => op.edge.take wpe)

/-- All records, grouped by ascending bucket id (buckets that were never written,
hence unowned, contribute nothing): the output the sorted reader must produce. -/
def groupJoinGo (ops : List WriteOp) (wpe B : Nat) : Nat → Nat → List (List Word)
  | 0, _ => []
  | fuel + 1, b =>
    if b < B then bucketRecords ops wpe b ++ groupJoinGo ops wpe B fuel (b + 1)
    else []

def groupJoin (ops : List WriteOp) (wpe B b : Nat) : List (List Word) :=
  groupJoinGo ops wpe B (B - b) b

/-- The records written by thread t in unsorted mode, in write order. -/
def fileRecords (ops : List UWriteOp) (wpe t : Nat) : List (List Word) :=
  (ops.filter (fun op => op.tid = t)).map (fun op => op.edge.take wpe)

/-- All records, grouped by ascending file index: the output the unsorted reader
must produce. -/
def fileGroupsGo (ops : List UWriteOp) (wpe N : Nat) :
    Nat → Nat → List (List Word)
  | 0, _ => []
  | fuel + 1, f =>
    if f < N then fileRecords ops wpe f ++ fileGroupsGo ops wpe N fuel (f + 1)
    else []

def fileGroups (ops : List UWriteOp) (wpe N f : Nat) : List (List Word) :=
  fileGroupsGo ops wpe N (N - f) f

/-- Pull records from the sorted reader until the null sentinel (or fuel runs out;
every theorem instantiates fuel above the record count, where the result no longer
depends on it). -/
def readAllSorted (r : EdgeReader) : Nat → List (List Word)
  | 0 => []
  | fuel + 1 =>
    match r.NextSortedEdge with
    | (none, _) => []
    | (some e, r2) => e :: readAllSorted r2 fuel

/-- Pull records from the unsorted reader until the null sentinel. -/
def readAllUnsorted (r : EdgeReader) : Nat → List (List Word)
  | 0 => []
  | fuel + 1 =>
    match r.NextUnsortedEdge with
    | (none, _) => []
    | (some e, r2) => e :: readAllUnsorted r2 fuel

-- ========== edge store: reader denotation ==========

/-- What the sorted reader emits for bucket b: nothing when unowned, otherwise the
total_number records at word offset wpe * starting_offset of the owner map. -/
def bucketRun (p : List PartitionRecord) (mm : List (List Word)) (wpe b : Nat) :
    List (List Word) :=
  let pr := p.getD b PartitionRecord.init
  if 0 ≤ pr.thread_id then
    readRun (mm.getD pr.thread_id.toNat []) wpe (wpe * pr.starting_offset)
      pr.total_number
  else []

/-- Concatenation of the bucket runs from bucket b upward. -/
def bucketsFromGo (p : List PartitionRecord) (mm : List (List Word)) (wpe : Nat) :
    Nat → Nat → List (List Word)
  | 0, _ => []
  | fuel + 1, b =>
    if b < p.length then
      bucketRun p mm wpe b ++ bucketsFromGo p mm wpe fuel (b + 1)
    else []

def bucketsFrom (p : List PartitionRecord) (mm : List (List Word)) (wpe b : Nat) :
    List (List Word) :=
  bucketsFromGo p mm wpe (p.length - b) b

/-- Concatenation of the file runs from file f upward. -/
def filesFromGo (sizes : List Nat) (mm : List (List Word)) (wpe n : Nat) :
    Nat → Nat → List (List Word)
  | 0, _ => []
  | fuel + 1, f =>
    if f < n then
      readRun (mm.getD f []) wpe 0 (sizes.getD f 0) ++
        filesFromGo sizes mm wpe n fuel (f + 1)
    else []

def filesFrom (sizes : List Nat) (mm : List (List Word)) (wpe n f : Nat) :
    List (List Word) :=
  filesFromGo sizes mm wpe n (n - f) f

/-- The records a sorted reader in state r has yet to emit. -/
def sortedRemaining (r : EdgeReader) : List (List Word) :=
  if (r.num_buckets : Int) ≤ r.cur_bucket then []
  else if r.cur_vol ≤ r.cur_cnt then
    bucketsFrom r.p_rec r.mmaps r.words_per_edge (r.cur_bucket + 1).toNat
  else
    let pr := r.p_rec.getD r.cur_bucket.toNat PartitionRecord.init
    readRun (r.mmaps.getD pr.thread_id.toNat []) r.words_per_edge
        (r.words_per_edge * pr.starting_offset + r.words_per_edge * r.cur_cnt)
        (r.cur_vol - r.cur_cnt)
      ++ bucketsFrom r.p_rec r.mmaps r.words_per_edge (r.cur_bucket.toNat + 1)

/-- The records an unsorted reader in state r has yet to emit. -/
def unsortedRemaining (r : EdgeReader) : List (List Word) :=
  if (r.num_files : Int) ≤ r.cur_file_num then []
  else if r.cur_vol ≤ r.cur_cnt then
    filesFrom r.file_sizes r.mmaps r.words_per_edge r.num_files
      (r.cur_file_num + 1).toNat
  else
    readRun (r.mmaps.getD r.cur_file_num.toNat []) r.words_per_edge
        (r.words_per_edge * r.cur_cnt) (r.cur_vol - r.cur_cnt)
      ++ filesFrom r.file_sizes r.mmaps r.words_per_edge r.num_files
          (r.cur_file_num.toNat + 1)

/-- Geometric well-formedness of a sorted reader state: the cursor is either
between buckets (nothing pending) or inside an owned bucket with the pointer at
record cur_cnt of that bucket run. -/
def SortedOk (r : EdgeReader) : Prop :=
  r.num_buckets = r.p_rec.length ∧
  ((r.cur_vol ≤ r.cur_cnt ∧ -1 ≤ r.cur_bucket) ∨
   (∃ b : Nat, r.cur_bucket = (b : Int) ∧ b < r.p_rec.length ∧
      0 ≤ (r.p_rec.getD b PartitionRecord.init).thread_id ∧
      r.cur_vol = (r.p_rec.getD b PartitionRecord.init).total_number ∧
      r.cur_cnt < r.cur_vol ∧
      r.cur_ptr = ((r.p_rec.getD b PartitionRecord.init).thread_id.toNat,
        r.words_per_edge * (r.p_rec.getD b PartitionRecord.init).starting_offset +
          r.words_per_edge * r.cur_cnt)))

/-- Geometric well-formedness of an unsorted reader state. -/
def UnsortedOk (r : EdgeReader) : Prop :=
  (r.cur_vol ≤ r.cur_cnt ∧ -1 ≤ r.cur_file_num) ∨
  (∃ f : Nat, r.cur_file_num = (f : Int) ∧ f < r.num_files ∧
     r.cur_vol = r.file_sizes.getD f 0 ∧ r.cur_cnt < r.cur_vol ∧
     r.cur_ptr = (f, r.words_per_edge * r.cur_cnt))

-- ========== edge store: writer invariant ==========

/-- Invariant of a sorted-mode writer that has performed exactly the write calls
in ops (in order) since init_files, for a writer configured with wpe words per
record, B buckets and N threads.  The bucket clause is the heart: an owned bucket
owns a contiguous slice of its owner write sequence starting at the recorded
offset, and that slice touches the end of the sequence exactly for the owner
current bucket. -/
structure WriterInv (wpe B N : Nat) (ops : List WriteOp) (w : EdgeWriter) : Prop where
  hwpe : w.words_per_edge = wpe
  hN : w.num_threads = N
  hB : w.num_buckets = B
  huns : w.unsorted = false
  hopen : w.is_opened = true
  hinfo : w.info_file = none
  hunc : w.num_unsorted_edges = []
  len_files : w.file_contents.length = N
  len_cb : w.cur_bucket.length = N
  len_cnt : w.cur_num_edges.length = N
  len_prec : w.p_rec.length = B
  hops : ∀ op ∈ ops, op.tid < N ∧ op.bucket < B
  file_eq : ∀ t, t < N → w.file_contents.getD t [] = (threadRecords ops wpe t).flatten
  cnt_eq : ∀ t, t < N →
    w.cur_num_edges.getD t 0 = (ops.filter (fun op => op.tid = t)).length
  cb_cases : ∀ t, t < N →
    w.cur_bucket.getD t (-1) = -1 ∨
    (∃ b : Nat, b < B ∧ w.cur_bucket.getD t (-1) = (b : Int) ∧
       (w.p_rec.getD b PartitionRecord.init).thread_id = (t : Int))
  owned : ∀ b, b < B →
    ((w.p_rec.getD b PartitionRecord.init).thread_id = -1 ∧
     (w.p_rec.getD b PartitionRecord.init).total_number = 0 ∧
     ops.filter (fun op => op.bucket = b) = []) ∨
    (∃ t : Nat, t < N ∧
       (w.p_rec.getD b PartitionRecord.init).thread_id = (t : Int) ∧
       ((ops.filter (fun op => op.tid = t)).drop
           (w.p_rec.getD b PartitionRecord.init).starting_offset).take
           (w.p_rec.getD b PartitionRecord.init).total_number =
         ops.filter (fun op => op.bucket = b) ∧
       (w.p_rec.getD b PartitionRecord.init).total_number =
         (ops.filter (fun op => op.bucket = b)).length ∧
       (w.p_rec.getD b PartitionRecord.init).starting_offset +
           (w.p_rec.getD b PartitionRecord.init).total_number ≤
         (ops.filter (fun op => op.tid = t)).length ∧
       (w.cur_bucket.getD t (-1) = (b : Int) ↔
         (w.p_rec.getD b PartitionRecord.init).starting_offset +
             (w.p_rec.getD b PartitionRecord.init).total_number =
           (ops.filter (fun op => op.tid = t)).length))

/-- Invariant of an unsorted-mode writer that has performed exactly the
write_unsorted calls in ops since init_files. -/
structure UnsortedInv (wpe N : Nat) (ops : List UWriteOp) (w : EdgeWriter) : Prop where
  hwpe : w.words_per_edge = wpe
  hN : w.num_threads = N
  hB : w.num_buckets = 0
  huns : w.unsorted = true
  hopen : w.is_opened = true
  hinfo : w.info_file = none
  hprec : w.p_rec = []
  len_files : w.file_contents.length = N
  len_cnt : w.num_unsorted_edges.length = N
  hops : ∀ op ∈ ops, op.tid < N
  file_eq : ∀ t, t < N → w.file_contents.getD t [] = (fileRecords ops wpe t).flatten
  cnt_eq : ∀ t, t < N →
    w.num_unsorted_edges.getD t 0 = (ops.filter (fun op => op.tid = t)).length

-- ========== unitig graph: data model ==========

/-- Modelled from the spec: the external succinct de Bruijn graph (sdbg/sdbg.h is
not part of this repository snapshot) is consumed only through outgoing-edge
enumeration at a raw id and the next-simple-path-edge query; SDBG::kNullID is
modelled by none. -/
structure SuccinctDBG where
  outgoing : Nat → List Nat
  nextSimplePath : Nat → Option Nat

/-- Modelled from the spec: a unitig-graph vertex (unitig_graph_vertex.h is not
part of this snapshot) records begin/end raw sdbg ids for the forward orientation
and for the reverse-complement orientation, plus a cached out-degree per
orientation; Vertex::kUnknownDegree is modelled by none. -/
structure UnitigVertex where
  fwd_begin : Nat
  fwd_end : Nat
  rev_begin : Nat
  rev_end : Nat
  cache_fwd : Option Nat
  cache_rev : Option Nat
deriving DecidableEq, Repr

def defaultVertex : UnitigVertex := ⟨0, 0, 0, 0, none, none⟩

instance : Inhabited UnitigVertex := ⟨defaultVertex⟩

/-- Modelled from the spec: an adapter is an ephemeral handle made of a vertex
reference, a strand flag and the compact vertex id; the vertex reference is
resolved through the graph state here, so the handle itself carries id and
strand. -/
structure VertexAdapter where
  id : Nat
  strand : Bool
deriving DecidableEq, Repr

/-- The unitig graph: vertex collection, raw-sdbg-id to compact-id map, and the
non-owning reference to the underlying succinct graph.  The lock bitvector and
the diagnostic hit/miss counters play no part in the traversal values and are
not modelled. -/
structure UnitigGraph where
  vertices : List UnitigVertex
  id_map : Nat → Option Nat
  sdbg : SuccinctDBG

/-- Modelled from the spec: ReverseComplement is an O(1) in-place strand flip. -/
def VertexAdapter.rc (a : VertexAdapter) : VertexAdapter := ⟨a.id, !a.strand⟩

def adapterVertex (g : UnitigGraph) (a : VertexAdapter) : UnitigVertex :=
  g.vertices.getD a.id defaultVertex

/-- adapter.begin(): the begin raw id under the current orientation. -/
def beginId (g : UnitigGraph) (a : VertexAdapter) : Nat :=
  if a.strand then (adapterVertex g a).rev_begin else (adapterVertex g a).fwd_begin

/-- adapter.end(): the end raw id under the current orientation. -/
def endId (g : UnitigGraph) (a : VertexAdapter) : Nat :=
  if a.strand then (adapterVertex g a).rev_end else (adapterVertex g a).fwd_end

/-- adapter.cached_out_degree() for the orientation of a. -/
def cachedOutDegree (g : UnitigGraph) (a : VertexAdapter) : Option Nat :=
  if a.strand then (adapterVertex g a).cache_rev else (adapterVertex g a).cache_fwd

/-- set_cached_outdegree through the privileged view at (vertex id, strand). -/
def setCachedOutdegree (g : UnitigGraph) (i : Nat) (s : Bool) (d : Nat) :
    UnitigGraph :=
  { g with vertices := listModify g.vertices i (fun v =>
      if s then { v with cache_rev := some d } else { v with cache_fwd := some d }) }

/-- MakeVertexAdapter(id, strand). -/
def MakeVertexAdapter (id : Nat) (strand : Bool) : VertexAdapter := ⟨id, strand⟩

/-- MakeVertexAdapterWithSdbgId: look the raw id up in the map, build the adapter
on the forward strand, and reverse-complement it when its begin() misses the raw
id (id_map_.at on an unregistered id throws in C++; here the lookup defaults and
every theorem that needs it hypothesizes registration). -/
def MakeVertexAdapterWithSdbgId (g : UnitigGraph) (sdbg_id : Nat) : VertexAdapter :=
  let id := (g.id_map sdbg_id).getD 0
  let a : VertexAdapter := ⟨id, false⟩
  if beginId g a ≠ sdbg_id then a.rc else a

/-- GetNextAdapters: enumerate the outgoing edges at end(), build one
self-consistent adapter per destination, and opportunistically cache the fan-out
when the degree was still unknown.  Returns (degree, destinations, new graph
state); the input adapter itself is not mutated. -/
def GetNextAdapters (g : UnitigGraph) (a : VertexAdapter) :
    Nat × List VertexAdapter × UnitigGraph :=
  let next_starts := g.sdbg.outgoing (endId g a)
  let degree := next_starts.length
  let outs := next_starts.map (MakeVertexAdapterWithSdbgId g)
  let g2 := if cachedOutDegree g a = none
            then setCachedOutdegree g a.id a.strand degree else g
  (degree, outs, g2)

/-- GetPrevAdapters: reverse-complement the input, delegate to GetNextAdapters,
reverse-complement every result and the input back.  The last component is the
final value of the by-reference input adapter. -/
def GetPrevAdapters (g : UnitigGraph) (a : VertexAdapter) :
    Nat × List VertexAdapter × UnitigGraph × VertexAdapter :=
  let a1 := a.rc
  let r := GetNextAdapters g a1
  (r.1, r.2.1.map VertexAdapter.rc, r.2.2, a1.rc)

/-- OutDegree: the cached value when known, else computed via GetNextAdapters with
no output buffer.  The hit/miss diagnostic counters are not modelled. -/
def OutDegree (g : UnitigGraph) (a : VertexAdapter) : Nat × UnitigGraph :=
  match cachedOutDegree g a with
  | some d => (d, g)
  | none => let r := GetNextAdapters g a; (r.1, r.2.2)

/-- InDegree: OutDegree of the reverse-complement; the input adapter is flipped,
queried, and flipped back.  The last component is the final value of the
by-reference input adapter. -/
def InDegree (g : UnitigGraph) (a : VertexAdapter) :
    Nat × UnitigGraph × VertexAdapter :=
  let a1 := a.rc
  let r := OutDegree g a1
  (r.1, r.2, a1.rc)

/-- NextSimplePathAdapter: follow the unique simple-path successor; the empty
default adapter returned at a branch or dead end is modelled by none. -/
def NextSimplePathAdapter (g : UnitigGraph) (a : VertexAdapter) :
    Option VertexAdapter :=
  match g.sdbg.nextSimplePath (endId g a) with
  | some nid => some (MakeVertexAdapterWithSdbgId g nid)
  | none => none

/-- PrevSimplePathAdapter: reverse-complement the input, delegate, flip the result
and the input back.  The second component is the final value of the by-reference
input adapter. -/
def PrevSimplePathAdapter (g : UnitigGraph) (a : VertexAdapter) :
    Option VertexAdapter × VertexAdapter :=
  let a1 := a.rc
  let ret := NextSimplePathAdapter g a1
  (ret.map VertexAdapter.rc, a1.rc)

/-- The cached out-degree at a, when present, is the fan-out GetNextAdapters
would compute there: the state of a cache written against the current graph. -/
def CacheCoherentAt (g : UnitigGraph) (a : VertexAdapter) : Prop :=
  ∀ d, cachedOutDegree g a = some d → d = (g.sdbg.outgoing (endId g a)).length

-- ========== concrete fixtures used by witness theorems ==========

def witnessVertexA : UnitigVertex := ⟨10, 11, 12, 13, none, none⟩

def witnessVertexB : UnitigVertex := ⟨20, 21, 22, 23, none, none⟩

def witnessVertexC : UnitigVertex := ⟨31, 32, 30, 33, none, none⟩

def witnessSdbg : SuccinctDBG :=
  ⟨fun r => if r = 11 then [20, 30] else [],
   fun r => if r = 11 then some 20 else none⟩

def witnessGraph : UnitigGraph :=
  ⟨[witnessVertexA, witnessVertexB, witnessVertexC],
   fun r => if r = 10 then some 0 else if r = 20 then some 1 else
            if r = 30 then some 2 else none,
   witnessSdbg⟩

def witnessAdapter : VertexAdapter := ⟨0, false⟩

def witnessWriter0 : EdgeWriter :=
  ((((EdgeWriter.new.set_kmer_size 21).set_num_threads 2).set_num_buckets
      3).init_files).getD EdgeWriter.new

def witnessOps : List WriteOp :=
  [⟨[1, 2], 0, 0⟩, ⟨[3, 4], 0, 0⟩, ⟨[5, 6], 2, 1⟩, ⟨[7, 8], 1, 0⟩]

def witnessWriter : EdgeWriter :=
  (runWrites witnessWriter0 witnessOps).getD EdgeWriter.new

def witnessUWriter0 : EdgeWriter :=
  (((EdgeWriter.new.set_kmer_size 21).set_num_threads 2).set_unsorted.init_files).getD
    EdgeWriter.new

def witnessUOps : List UWriteOp := [⟨[1, 2], 0⟩, ⟨[3, 4], 0⟩, ⟨[5, 6], 1⟩]

def witnessUWriter : EdgeWriter :=
  (runUnsorted witnessUWriter0 witnessUOps).getD EdgeWriter.new

-- ========== helper lemmas: list surgery ==========

theorem length_listModify {α : Type} (l : List α) (i : Nat) (f : α → α) :
    (listModify l i f).length = l.length := by
  induction l generalizing i with
  | nil => rfl
  | cons x xs ih =>
    cases i with
    | zero => rfl
    | succ j => simp [listModify, ih]

theorem getD_listModify_eq {α : Type} (l : List α) (i : Nat) (f : α → α) (d : α)
    (h : i < l.length) : (listModify l i f).getD i d = f (l.getD i d) := by
  induction l generalizing i with
  | nil => simp at h
  | cons x xs ih =>
    cases i with
    | zero => rfl
    | succ j =>
      have hj : j < xs.length := by simpa using h
      simpa [listModify] using ih j hj

theorem getD_listModify_ne {α : Type} (l : List α) (i j : Nat) (f : α → α) (d : α)
    (h : i ≠ j) : (listModify l i f).getD j d = l.getD j d := by
  induction l generalizing i j with
  | nil => rfl
  | cons x xs ih =>
    cases i with
    | zero =>
      cases j with
      | zero => exact absurd rfl h
      | succ j2 => rfl
    | succ i2 =>
      cases j with
      | zero => rfl
      | succ j2 =>
        have : i2 ≠ j2 := fun hh => h (by omega)
        simpa [listModify] using ih i2 j2 this

theorem getD_replicate {α : Type} (n i : Nat) (a d : α) (h : i < n) :
    (List.replicate n a).getD i d = a := by
  induction n generalizing i with
  | zero => omega
  | succ m ih =>
    cases i with
    | zero => rfl
    | succ j =>
      have hj : j < m := by omega
      simpa [List.replicate] using ih j hj

theorem drop_append_len {α : Type} (x mm : List α) (n : Nat) :
    (x ++ mm).drop (x.length + n) = mm.drop n := by
  induction x with
  | nil => simp
  | cons a xs ih => simpa [Nat.succ_add] using ih

-- ========== helper lemmas: readRun ==========

theorem readRun_shift (x mm : List Word) (wpe off cnt : Nat) :
    readRun (x ++ mm) wpe (x.length + off) cnt = readRun mm wpe off cnt := by
  induction cnt generalizing off with
  | zero => rfl
  | succ k ih =>
    show ((x ++ mm).drop (x.length + off)).take wpe ::
        readRun (x ++ mm) wpe (x.length + off + wpe) k =
      (mm.drop off).take wpe :: readRun mm wpe (off + wpe) k
    rw [drop_append_len, Nat.add_assoc, ih]

theorem readRun_flatten_slice (wpe : Nat) (recs : List (List Word)) (s k : Nat)
    (hlen : ∀ x ∈ recs, x.length = wpe) (hsk : s + k ≤ recs.length) :
    readRun recs.flatten wpe (wpe * s) k = (recs.drop s).take k := by
  induction recs generalizing s k with
  | nil =>
    have hk : k = 0 := by simp at hsk; omega
    subst hk
    rfl
  | cons r rs ih =>
    have hr : r.length = wpe := hlen r (by simp)
    cases s with
    | zero =>
      cases k with
      | zero => rfl
      | succ k2 =>
        show ((r :: rs).flatten.drop (wpe * 0)).take wpe ::
            readRun (r :: rs).flatten wpe (wpe * 0 + wpe) k2 =
          r :: rs.take k2
        have h1 : ((r :: rs).flatten.drop (wpe * 0)).take wpe = r := by
          rw [Nat.mul_zero, List.drop_zero, List.flatten_cons,
            List.take_append_of_le_length (by omega), ← hr, List.take_length]
        have h2 : readRun (r :: rs).flatten wpe (wpe * 0 + wpe) k2 = rs.take k2 := by
          rw [Nat.mul_zero, Nat.zero_add, List.flatten_cons]
          have hshift := readRun_shift r rs.flatten wpe 0 k2
          rw [Nat.add_zero, hr] at hshift
          rw [hshift]
          have := ih 0 k2 (fun x hx => hlen x (by simp [hx]))
            (by simp at hsk; omega)
          simpa using this
        rw [h1, h2]
    | succ s2 =>
      have h1 : wpe * (s2 + 1) = r.length + wpe * s2 := by
        rw [hr]; ring
      rw [List.flatten_cons, h1, readRun_shift]
      have := ih s2 k (fun x hx => hlen x (by simp [hx])) (by simp at hsk; omega)
      rw [this]
      rfl

theorem flatten_length_const (wpe : Nat) (recs : List (List Word))
    (h : ∀ x ∈ recs, x.length = wpe) : recs.flatten.length = wpe * recs.length := by
  induction recs with
  | nil => rfl
  | cons r rs ih =>
    have hr : r.length = wpe := h r (by simp)
    have := ih (fun x hx => h x (by simp [hx]))
    simp [List.flatten_cons, hr, this]
    ring

-- ========== helper lemmas: indexed sums ==========

theorem sumOver_zero_n (f : Nat → Nat) : sumOver 0 f = 0 := rfl

theorem sumOver_succ (n : Nat) (f : Nat → Nat) :
    sumOver (n + 1) f = sumOver n f + f n := by
  simp [sumOver, List.range_succ]

theorem sumOver_succ_left (n : Nat) (f : Nat → Nat) :
    sumOver (n + 1) f = f 0 + sumOver n (fun i => f (i + 1)) := by
  simp only [sumOver, List.range_succ_eq_map, List.map_cons, List.map_map,
    List.sum_cons]
  rfl

theorem sumOver_congr (n : Nat) (f g : Nat → Nat) (h : ∀ i, i < n → f i = g i) :
    sumOver n f = sumOver n g := by
  induction n with
  | zero => rfl
  | succ m ih =>
    rw [sumOver_succ, sumOver_succ, ih (fun i hi => h i (by omega)), h m (by omega)]

theorem sumOver_add (n : Nat) (f g : Nat → Nat) :
    sumOver n (fun i => f i + g i) = sumOver n f + sumOver n g := by
  induction n with
  | zero => rfl
  | succ m ih =>
    rw [sumOver_succ, sumOver_succ, sumOver_succ, ih]
    omega

theorem sumOver_const_zero (n : Nat) : sumOver n (fun _ => 0) = 0 := by
  induction n with
  | zero => rfl
  | succ m ih => rw [sumOver_succ, ih]

theorem sumOver_indicator (n k v : Nat) (h : k < n) :
    sumOver n (fun i => if k = i then v else 0) = v := by
  induction n with
  | zero => omega
  | succ m ih =>
    rw [sumOver_succ]
    by_cases hk : k = m
    · subst hk
      have : sumOver k (fun i => if k = i then v else 0) =
          sumOver k (fun _ => 0) :=
        sumOver_congr _ _ _ (fun i hi => by
          have : k ≠ i := by omega
          simp [this])
      rw [this, sumOver_const_zero]
      simp
    · have hk2 : k < m := by omega
      rw [ih hk2]
      simp [hk]

theorem map_sum_eq_sumOver (p : List PartitionRecord) (f : PartitionRecord → Nat) :
    (p.map f).sum = sumOver p.length (fun b => f (p.getD b PartitionRecord.init)) := by
  induction p with
  | nil => rfl
  | cons pr ps ih =>
    rw [List.map_cons, List.sum_cons, ih, List.length_cons, sumOver_succ_left]
    simp

-- ========== helper lemmas: read_info file size accumulation ==========

theorem length_listAddAt (l : List Nat) (i : Int) (v : Nat) :
    (listAddAt l i v).length = l.length := by
  unfold listAddAt
  split
  · exact length_listModify l i.toNat _
  · rfl

theorem getD_listAddAt (l : List Nat) (i : Int) (v : Nat) (t : Nat)
    (ht : t < l.length) :
    (listAddAt l i v).getD t 0 = l.getD t 0 + (if i = (t : Int) then v else 0) := by
  unfold listAddAt
  by_cases h0 : 0 ≤ i
  · simp only [h0, if_true]
    by_cases he : i.toNat = t
    · have hi : i = (t : Int) := by omega
      rw [if_pos hi, ← he, getD_listModify_eq l i.toNat _ 0 (by omega)]
    · have hi : ¬i = (t : Int) := by omega
      rw [if_neg hi, getD_listModify_ne l i.toNat t _ 0 he]
      omega
  · have hi : ¬i = (t : Int) := by omega
    rw [if_neg h0, if_neg hi]
    omega

theorem foldl_addAt_length (p : List PartitionRecord) (fs : List Nat) :
    (p.foldl (fun fs2 pr => listAddAt fs2 pr.thread_id pr.total_number) fs).length =
      fs.length := by
  induction p generalizing fs with
  | nil => rfl
  | cons pr ps ih => rw [List.foldl_cons, ih, length_listAddAt]

theorem foldl_addAt_getD (p : List PartitionRecord) (fs : List Nat) (t : Nat)
    (ht : t < fs.length) :
    (p.foldl (fun fs2 pr => listAddAt fs2 pr.thread_id pr.total_number) fs).getD t 0 =
      fs.getD t 0 +
        (p.map (fun pr => if pr.thread_id = (t : Int) then pr.total_number else 0)).sum := by
  induction p generalizing fs with
  | nil => simp
  | cons pr ps ih =>
    rw [List.foldl_cons, ih _ (by rw [length_listAddAt]; exact ht),
      getD_listAddAt _ _ _ _ ht, List.map_cons, List.sum_cons, Nat.add_assoc]

theorem listModify_oob {α : Type} (l : List α) (i : Nat) (f : α → α)
    (h : l.length ≤ i) : listModify l i f = l := by
  induction l generalizing i with
  | nil => rfl
  | cons x xs ih =>
    cases i with
    | zero => simp at h
    | succ j => simp [listModify, ih j (by simpa using h)]

-- ========== helper lemmas: cache writes do not move begin/end ==========

theorem adapterVertex_setCache (g : UnitigGraph) (i : Nat) (s : Bool) (d : Nat)
    (b : VertexAdapter) :
    (adapterVertex (setCachedOutdegree g i s d) b).fwd_begin =
        (adapterVertex g b).fwd_begin ∧
      (adapterVertex (setCachedOutdegree g i s d) b).rev_begin =
        (adapterVertex g b).rev_begin ∧
      (adapterVertex (setCachedOutdegree g i s d) b).fwd_end =
        (adapterVertex g b).fwd_end ∧
      (adapterVertex (setCachedOutdegree g i s d) b).rev_end =
        (adapterVertex g b).rev_end := by
  unfold adapterVertex setCachedOutdegree
  simp only
  by_cases hid : i = b.id
  · subst hid
    by_cases hlt : b.id < g.vertices.length
    · rw [getD_listModify_eq _ _ _ _ hlt]
      cases s <;> simp
    · rw [listModify_oob _ _ _ (by omega)]
      exact ⟨rfl, rfl, rfl, rfl⟩
  · rw [getD_listModify_ne _ _ _ _ _ hid]
    exact ⟨rfl, rfl, rfl, rfl⟩

theorem beginId_setCache (g : UnitigGraph) (i : Nat) (s : Bool) (d : Nat)
    (b : VertexAdapter) :
    beginId (setCachedOutdegree g i s d) b = beginId g b := by
  have h := adapterVertex_setCache g i s d b
  unfold beginId
  cases hb : b.strand <;> simp [hb, h.1, h.2.1]

theorem endId_setCache (g : UnitigGraph) (i : Nat) (s : Bool) (d : Nat)
    (b : VertexAdapter) :
    endId (setCachedOutdegree g i s d) b = endId g b := by
  have h := adapterVertex_setCache g i s d b
  unfold endId
  cases hb : b.strand <;> simp [hb, h.2.2.1, h.2.2.2]

theorem cachedOutDegree_setCache_same (g : UnitigGraph) (i : Nat) (s : Bool)
    (d : Nat) (h : i < g.vertices.length) :
    cachedOutDegree (setCachedOutdegree g i s d) ⟨i, s⟩ = some d := by
  unfold cachedOutDegree adapterVertex setCachedOutdegree
  simp only
  rw [getD_listModify_eq _ _ _ _ h]
  cases s <;> simp

theorem cachedOutDegree_setCache_other (g : UnitigGraph) (i : Nat) (s : Bool)
    (d : Nat) (b : VertexAdapter) (h : ¬(b.id = i ∧ b.strand = s)) :
    cachedOutDegree (setCachedOutdegree g i s d) b = cachedOutDegree g b := by
  unfold cachedOutDegree adapterVertex setCachedOutdegree
  simp only
  by_cases hid : i = b.id
  · subst hid
    have hs : ¬b.strand = s := fun hh => h ⟨rfl, hh⟩
    by_cases hlt : b.id < g.vertices.length
    · rw [getD_listModify_eq _ _ _ _ hlt]
      cases hbs : b.strand <;> cases hcs : s <;> simp_all
    · rw [listModify_oob _ _ _ (by omega)]
  · rw [getD_listModify_ne _ _ _ _ _ hid]

/-- Any written cache entry survives a GetNextAdapters call at any adapter. -/
theorem cache_preserved_getNext (g : UnitigGraph) (x b : VertexAdapter) (d : Nat)
    (hb : cachedOutDegree g b = some d) :
    cachedOutDegree (GetNextAdapters g x).2.2 b = some d := by
  unfold GetNextAdapters
  simp only
  by_cases hx : cachedOutDegree g x = none
  · simp only [hx, if_true]
    by_cases hslot : b.id = x.id ∧ b.strand = x.strand
    · have : b = x := by
        cases b; cases x
        simp only at hslot
        simp [hslot.1, hslot.2]
      rw [this] at hb
      rw [hb] at hx
      exact absurd hx (by simp)
    · rw [cachedOutDegree_setCache_other _ _ _ _ _ hslot]
      exact hb
  · simp only [hx, if_false]
    exact hb

/-- Any written cache entry survives an OutDegree call at any adapter. -/
theorem cache_preserved_outDegree (g : UnitigGraph) (x b : VertexAdapter) (d : Nat)
    (hb : cachedOutDegree g b = some d) :
    cachedOutDegree (OutDegree g x).2 b = some d := by
  unfold OutDegree
  cases hx : cachedOutDegree g x with
  | some dx => exact hb
  | none => exact cache_preserved_getNext g x b d hb

theorem beginId_getNext (g : UnitigGraph) (x b : VertexAdapter) :
    beginId (GetNextAdapters g x).2.2 b = beginId g b := by
  unfold GetNextAdapters
  simp only
  split
  · exact beginId_setCache _ _ _ _ _
  · rfl

theorem endId_getNext (g : UnitigGraph) (x b : VertexAdapter) :
    endId (GetNextAdapters g x).2.2 b = endId g b := by
  unfold GetNextAdapters
  simp only
  split
  · exact endId_setCache _ _ _ _ _
  · rfl

theorem beginId_outDegree (g : UnitigGraph) (x b : VertexAdapter) :
    beginId (OutDegree g x).2 b = beginId g b := by
  unfold OutDegree
  cases hx : cachedOutDegree g x with
  | some dx => rfl
  | none => exact beginId_getNext g x b

theorem endId_outDegree (g : UnitigGraph) (x b : VertexAdapter) :
    endId (OutDegree g x).2 b = endId g b := by
  unfold OutDegree
  cases hx : cachedOutDegree g x with
  | some dx => rfl
  | none => exact endId_getNext g x b

theorem rc_rc (a : VertexAdapter) : a.rc.rc = a := by
  cases a
  simp [VertexAdapter.rc]

-- ========== claim theorems: C3, C5, C4 ==========

/-- C3: set_kmer_size(k) sets words_per_edge to ceil(((k+1)*2+16)/32) — it equals
the closed form ((k+1)*2+16+31)/32, it is the least m with (k+1)*2+16 ≤ 32m, and
k = 21 gives 2 while k = 127 gives 9. -/
theorem c3_words_per_edge (w : EdgeWriter) (k : Nat) :
    (w.set_kmer_size k).words_per_edge = ((k + 1) * 2 + 16 + 31) / 32 ∧
    (k + 1) * 2 + 16 ≤ 32 * (w.set_kmer_size k).words_per_edge ∧
    (∀ m : Nat, (k + 1) * 2 + 16 ≤ 32 * m → (w.set_kmer_size k).words_per_edge ≤ m) ∧
    (EdgeWriter.new.set_kmer_size 21).words_per_edge = 2 ∧
    (EdgeWriter.new.set_kmer_size 127).words_per_edge = 9 := by
  refine ⟨?_, ?_, ?_, by decide, by decide⟩
  · show DivCeiling ((k + 1) * 2 + 16) 32 = ((k + 1) * 2 + 16 + 31) / 32
    unfold DivCeiling
    omega
  · show (k + 1) * 2 + 16 ≤ 32 * DivCeiling ((k + 1) * 2 + 16) 32
    unfold DivCeiling
    omega
  · intro m hm
    show DivCeiling ((k + 1) * 2 + 16) 32 ≤ m
    unfold DivCeiling
    omega

theorem c3_words_per_edge_witness :
    (EdgeWriter.new.set_kmer_size 21).words_per_edge = ((21 + 1) * 2 + 16 + 31) / 32 ∧
    (21 + 1) * 2 + 16 ≤ 32 * (EdgeWriter.new.set_kmer_size 21).words_per_edge := by
  have h := c3_words_per_edge EdgeWriter.new 21
  exact ⟨h.1, h.2.1⟩

/-- C5: EdgeWriter::destroy and EdgeReader::destroy are idempotent — the first
call on an opened instance closes and releases state (and, for the writer, writes
the metadata file), any call on a closed instance is a no-op, and a second call
leaves everything, metadata file included, unchanged. -/
theorem c5_destroy_idempotent (w : EdgeWriter) (r : EdgeReader) :
    (w.is_opened = true →
      (w.destroy).is_opened = false ∧ (w.destroy).info_file ≠ none) ∧
    (w.is_opened = false → w.destroy = w) ∧
    (w.destroy).destroy = w.destroy ∧
    (r.is_opened = true →
      (r.destroy).is_opened = false ∧ (r.destroy).mmaps = [] ∧
        (r.destroy).file_sizes = []) ∧
    (r.is_opened = false → r.destroy = r) ∧
    (r.destroy).destroy = r.destroy := by
  by_cases hw : w.is_opened <;> by_cases hr : r.is_opened <;>
    simp [EdgeWriter.destroy, EdgeReader.destroy, hw, hr]

theorem c5_destroy_idempotent_witness :
    (witnessWriter0.destroy).is_opened = false ∧
    (witnessWriter0.destroy).info_file ≠ none ∧
    (witnessWriter0.destroy).destroy = witnessWriter0.destroy := by
  have h := c5_destroy_idempotent witnessWriter0 EdgeReader.new
  have h1 := h.1 (by decide)
  exact ⟨h1.1, h1.2, h.2.2.1⟩

/-- C4: the first write observed for a bucket claims it (owner tid, starting
offset = the thread current record count); a write targeting a bucket that
differs from the thread current bucket and is owned by another thread dies on the
assertion; writes by a thread to its current bucket succeed, bumping the thread
counter and the bucket total. -/
theorem c4_bucket_claim (w : EdgeWriter) (edge : List Word) (bucket tid : Nat)
    (hb : bucket < w.p_rec.length) (ht : tid < w.cur_bucket.length)
    (htc : tid < w.cur_num_edges.length) :
    ((bucket : Int) ≠ w.cur_bucket.getD tid (-1) →
      ∀ t2 : Nat,
        (w.p_rec.getD bucket PartitionRecord.init).thread_id = (t2 : Int) →
        t2 ≠ tid → w.write edge bucket tid = none) ∧
    ((bucket : Int) ≠ w.cur_bucket.getD tid (-1) →
      (w.p_rec.getD bucket PartitionRecord.init).thread_id = -1 →
      ∃ w2, w.write edge bucket tid = some w2 ∧
        (w2.p_rec.getD bucket PartitionRecord.init).thread_id = (tid : Int) ∧
        (w2.p_rec.getD bucket PartitionRecord.init).starting_offset =
          w.cur_num_edges.getD tid 0 ∧
        (w2.p_rec.getD bucket PartitionRecord.init).total_number =
          (w.p_rec.getD bucket PartitionRecord.init).total_number + 1 ∧
        w2.cur_bucket.getD tid (-1) = (bucket : Int) ∧
        w2.cur_num_edges.getD tid 0 = w.cur_num_edges.getD tid 0 + 1) ∧
    ((bucket : Int) = w.cur_bucket.getD tid (-1) →
      ∃ w2, w.write edge bucket tid = some w2 ∧
        w2.cur_num_edges.getD tid 0 = w.cur_num_edges.getD tid 0 + 1 ∧
        (w2.p_rec.getD bucket PartitionRecord.init).total_number =
          (w.p_rec.getD bucket PartitionRecord.init).total_number + 1) := by
  refine ⟨?_, ?_, ?_⟩
  · intro hne t2 hown hne2
    have hno : ¬(w.p_rec.getD bucket PartitionRecord.init).thread_id = -1 := by
      rw [hown]; omega
    unfold EdgeWriter.write
    rw [if_pos ⟨hb, ht⟩, if_pos hne, if_neg hno]
    rfl
  · intro hne hun
    have hw : w.write edge bucket tid = some
        { w with
          p_rec := listModify (listModify w.p_rec bucket (fun pr =>
            { pr with thread_id := (tid : Int),
                      starting_offset := w.cur_num_edges.getD tid 0 })) bucket
            (fun pr => { pr with total_number := pr.total_number + 1 }),
          cur_bucket := listModify w.cur_bucket tid (fun _ => (bucket : Int)),
          file_contents := listModify w.file_contents tid
            (fun f => f ++ edge.take w.words_per_edge),
          cur_num_edges := listModify w.cur_num_edges tid (fun c => c + 1) } := by
      unfold EdgeWriter.write
      rw [if_pos ⟨hb, ht⟩, if_pos hne, if_pos hun]
      rfl
    have hlen1 : bucket < (listModify w.p_rec bucket (fun pr =>
        { pr with thread_id := (tid : Int),
                  starting_offset := w.cur_num_edges.getD tid 0 })).length := by
      rw [length_listModify]; exact hb
    refine ⟨_, hw, ?_, ?_, ?_, ?_, ?_⟩
    · show ((listModify (listModify w.p_rec bucket _) bucket _).getD bucket
        PartitionRecord.init).thread_id = (tid : Int)
      rw [getD_listModify_eq _ _ _ _ hlen1, getD_listModify_eq _ _ _ _ hb]
    · show ((listModify (listModify w.p_rec bucket _) bucket _).getD bucket
        PartitionRecord.init).starting_offset = w.cur_num_edges.getD tid 0
      rw [getD_listModify_eq _ _ _ _ hlen1, getD_listModify_eq _ _ _ _ hb]
    · show ((listModify (listModify w.p_rec bucket _) bucket _).getD bucket
        PartitionRecord.init).total_number =
        (w.p_rec.getD bucket PartitionRecord.init).total_number + 1
      rw [getD_listModify_eq _ _ _ _ hlen1, getD_listModify_eq _ _ _ _ hb]
    · show (listModify w.cur_bucket tid _).getD tid (-1) = (bucket : Int)
      rw [getD_listModify_eq _ _ _ _ ht]
    · show (listModify w.cur_num_edges tid _).getD tid 0 =
        w.cur_num_edges.getD tid 0 + 1
      rw [getD_listModify_eq _ _ _ _ htc]
  · intro heq
    have hw : w.write edge bucket tid = some
        { w with
          p_rec := listModify w.p_rec bucket
            (fun pr => { pr with total_number := pr.total_number + 1 }),
          file_contents := listModify w.file_contents tid
            (fun f => f ++ edge.take w.words_per_edge),
          cur_num_edges := listModify w.cur_num_edges tid (fun c => c + 1) } := by
      unfold EdgeWriter.write
      rw [if_pos ⟨hb, ht⟩, if_neg (by simpa using heq)]
      rfl
    refine ⟨_, hw, ?_, ?_⟩
    · show (listModify w.cur_num_edges tid _).getD tid 0 =
        w.cur_num_edges.getD tid 0 + 1
      rw [getD_listModify_eq _ _ _ _ htc]
    · show ((listModify w.p_rec bucket _).getD bucket
        PartitionRecord.init).total_number =
        (w.p_rec.getD bucket PartitionRecord.init).total_number + 1
      rw [getD_listModify_eq _ _ _ _ hb]

theorem c4_bucket_claim_witness :
    witnessWriter.write [9, 9] 2 0 = none ∧
    (∃ w2, witnessWriter.write [9, 9] 1 0 = some w2 ∧
      w2.cur_num_edges.getD 0 0 = witnessWriter.cur_num_edges.getD 0 0 + 1 ∧
      (w2.p_rec.getD 1 PartitionRecord.init).total_number =
        (witnessWriter.p_rec.getD 1 PartitionRecord.init).total_number + 1) := by
  constructor
  · exact (c4_bucket_claim witnessWriter [9, 9] 2 0 (by decide) (by decide)
      (by decide)).1 (by decide) 1 (by decide) (by decide)
  · exact (c4_bucket_claim witnessWriter [9, 9] 1 0 (by decide) (by decide)
      (by decide)).2.2 (by decide)

-- ========== claim theorems: C6, C7, C9, C8 ==========

/-- C6: OutDegree(A) equals InDegree of the reverse-complement of A, and
InDegree(A) equals OutDegree of the reverse-complement of A. -/
theorem c6_degree_symmetry (g : UnitigGraph) (a : VertexAdapter) :
    (OutDegree g a).1 = (InDegree g a.rc).1 ∧
    (InDegree g a).1 = (OutDegree g a.rc).1 := by
  constructor
  · show (OutDegree g a).1 = (OutDegree g a.rc.rc).1
    rw [rc_rc]
  · rfl

/-- C7: an adapter built from a raw sdbg id (the form returned by
GetNextAdapters / NextSimplePathAdapter and their reversed variants) satisfies
begin() = that raw id, the strand being flipped when needed, for every raw id
registered in the raw-id-to-vertex-id map (which maps it to a vertex carrying it
as one of its two begin ids). -/
theorem c7_make_with_sdbg_id (g : UnitigGraph) (sdbg_id cid : Nat)
    (h1 : g.id_map sdbg_id = some cid)
    (h3 : (g.vertices.getD cid defaultVertex).fwd_begin = sdbg_id ∨
          (g.vertices.getD cid defaultVertex).rev_begin = sdbg_id) :
    beginId g (MakeVertexAdapterWithSdbgId g sdbg_id) = sdbg_id ∧
    (∀ a : VertexAdapter, (GetNextAdapters g a).2.1 =
      (g.sdbg.outgoing (endId g a)).map (MakeVertexAdapterWithSdbgId g)) ∧
    (∀ a : VertexAdapter, NextSimplePathAdapter g a =
      (g.sdbg.nextSimplePath (endId g a)).map (MakeVertexAdapterWithSdbgId g)) := by
  refine ⟨?_, fun a => rfl, fun a => ?_⟩
  · have hrw : MakeVertexAdapterWithSdbgId g sdbg_id =
        if beginId g ⟨cid, false⟩ ≠ sdbg_id then VertexAdapter.rc ⟨cid, false⟩
        else ⟨cid, false⟩ := by
      unfold MakeVertexAdapterWithSdbgId
      simp only [h1, Option.getD_some]
    have hb0 : beginId g ⟨cid, false⟩ =
        (g.vertices.getD cid defaultVertex).fwd_begin := rfl
    have hb1 : beginId g (VertexAdapter.rc ⟨cid, false⟩) =
        (g.vertices.getD cid defaultVertex).rev_begin := rfl
    rw [hrw]
    by_cases hf : beginId g (⟨cid, false⟩ : VertexAdapter) = sdbg_id
    · rw [if_neg (fun hn => hn hf)]
      exact hf
    · rw [if_pos hf]
      cases h3 with
      | inl h => exact absurd (hb0.trans h) hf
      | inr h => exact hb1.trans h
  · cases hn : g.sdbg.nextSimplePath (endId g a) <;>
      simp [NextSimplePathAdapter, hn]

theorem c7_make_with_sdbg_id_witness :
    witnessGraph.id_map 30 = some 2 ∧
    beginId witnessGraph (MakeVertexAdapterWithSdbgId witnessGraph 30) = 30 := by
  exact ⟨rfl, (c7_make_with_sdbg_id witnessGraph 30 2 rfl (Or.inr rfl)).1⟩

/-- C9: the direction-reversing operations GetPrevAdapters, InDegree and
PrevSimplePathAdapter return the by-reference input adapter exactly as it was
(strand and id, hence begin and end, unchanged), reverse-complement being an
involution; the graph state they may touch (the degree cache) never moves any
begin/end id. -/
theorem c9_reverse_ops_preserve_input (g : UnitigGraph) (a : VertexAdapter) :
    (GetPrevAdapters g a).2.2.2 = a ∧
    (InDegree g a).2.2 = a ∧
    (PrevSimplePathAdapter g a).2 = a ∧
    a.rc.rc = a ∧
    beginId (GetPrevAdapters g a).2.2.1 a = beginId g a ∧
    endId (GetPrevAdapters g a).2.2.1 a = endId g a ∧
    beginId (InDegree g a).2.1 a = beginId g a ∧
    endId (InDegree g a).2.1 a = endId g a := by
  refine ⟨rc_rc a, rc_rc a, rc_rc a, rc_rc a, ?_, ?_, ?_, ?_⟩
  · exact beginId_getNext g a.rc a
  · exact endId_getNext g a.rc a
  · exact beginId_outDegree g a.rc a
  · exact endId_outDegree g a.rc a

/-- C8: GetNextAdapters writes the degree cache only when the cached out-degree
is still unknown, storing the freshly computed fan-out (leaving the graph state
untouched on a hit); a written entry is never overwritten by GetNextAdapters,
GetPrevAdapters, OutDegree or InDegree at any adapter; and OutDegree returns the
fan-out of the underlying graph whether it serves the cache or computes it via
GetNextAdapters with no output buffer, as long as the cache entry (if any) was
written against the current graph. -/
theorem c8_degree_cache (g : UnitigGraph) (a : VertexAdapter) :
    (a.id < g.vertices.length → cachedOutDegree g a = none →
      cachedOutDegree (GetNextAdapters g a).2.2 a = some (GetNextAdapters g a).1 ∧
      (GetNextAdapters g a).1 = (g.sdbg.outgoing (endId g a)).length) ∧
    (∀ d, cachedOutDegree g a = some d → (GetNextAdapters g a).2.2 = g) ∧
    (∀ b d, cachedOutDegree g b = some d →
      cachedOutDegree (GetNextAdapters g a).2.2 b = some d ∧
      cachedOutDegree (GetPrevAdapters g a).2.2.1 b = some d ∧
      cachedOutDegree (OutDegree g a).2 b = some d ∧
      cachedOutDegree (InDegree g a).2.1 b = some d) ∧
    (CacheCoherentAt g a →
      (OutDegree g a).1 = (g.sdbg.outgoing (endId g a)).length) := by
  refine ⟨?_, ?_, ?_, ?_⟩
  · intro hlt hnone
    constructor
    · show cachedOutDegree
        (if cachedOutDegree g a = none then
          setCachedOutdegree g a.id a.strand ((g.sdbg.outgoing (endId g a)).length)
         else g) a = _
      rw [if_pos hnone]
      exact cachedOutDegree_setCache_same g a.id a.strand _ hlt
    · rfl
  · intro d hd
    show (if cachedOutDegree g a = none then
        setCachedOutdegree g a.id a.strand ((g.sdbg.outgoing (endId g a)).length)
      else g) = g
    rw [if_neg (by simp [hd])]
  · intro b d hd
    exact ⟨cache_preserved_getNext g a b d hd,
           cache_preserved_getNext g a.rc b d hd,
           cache_preserved_outDegree g a b d hd,
           cache_preserved_outDegree g a.rc b d hd⟩
  · intro hco
    cases hc : cachedOutDegree g a with
    | some d =>
      have h1 : (OutDegree g a).1 = d := by unfold OutDegree; rw [hc]
      rw [h1]
      exact hco d hc
    | none =>
      have h1 : (OutDegree g a).1 = (GetNextAdapters g a).1 := by
        unfold OutDegree; rw [hc]
      rw [h1]
      rfl

theorem c8_degree_cache_witness :
    cachedOutDegree (GetNextAdapters witnessGraph witnessAdapter).2.2
      witnessAdapter = some (GetNextAdapters witnessGraph witnessAdapter).1 ∧
    (OutDegree witnessGraph witnessAdapter).1 = 2 := by
  have h := c8_degree_cache witnessGraph witnessAdapter
  have hnone : cachedOutDegree witnessGraph witnessAdapter = none := rfl
  refine ⟨(h.1 (by decide) hnone).1, ?_⟩
  have hco : CacheCoherentAt witnessGraph witnessAdapter := by
    intro d hd
    rw [hnone] at hd
    exact Option.noConfusion hd
  exact h.2.2.2 hco

-- ========== helper lemmas: reader loop unfoldings ==========

theorem findSortedBucket_eq (p : List PartitionRecord) (n b : Nat) :
    findSortedBucket p n b =
      if b < n then
        if (p.getD b PartitionRecord.init).thread_id < 0 ∨
            (p.getD b PartitionRecord.init).total_number = 0 then
          findSortedBucket p n (b + 1)
        else some b
      else none := by
  unfold findSortedBucket
  rcases h : n - b with _ | fuel
  · have hb : ¬b < n := by omega
    rw [if_neg hb]
    rfl
  · have hb : b < n := by omega
    show (if b < n then _ else none) = _
    rw [if_pos hb, if_pos hb]
    have h2 : n - (b + 1) = fuel := by omega
    rw [h2]

theorem findUnsortedFile_eq (sizes : List Nat) (n f : Nat) :
    findUnsortedFile sizes n f =
      if f < n then
        if sizes.getD f 0 = 0 then findUnsortedFile sizes n (f + 1) else some f
      else none := by
  unfold findUnsortedFile
  rcases h : n - f with _ | fuel
  · have hb : ¬f < n := by omega
    rw [if_neg hb]
    rfl
  · have hb : f < n := by omega
    show (if f < n then _ else none) = _
    rw [if_pos hb, if_pos hb]
    have h2 : n - (f + 1) = fuel := by omega
    rw [h2]

theorem bucketsFrom_eq (p : List PartitionRecord) (mm : List (List Word))
    (wpe b : Nat) :
    bucketsFrom p mm wpe b =
      if b < p.length then bucketRun p mm wpe b ++ bucketsFrom p mm wpe (b + 1)
      else [] := by
  unfold bucketsFrom
  rcases h : p.length - b with _ | fuel
  · have hb : ¬b < p.length := by omega
    rw [if_neg hb]
    rfl
  · have hb : b < p.length := by omega
    show (if b < p.length then _ else []) = _
    rw [if_pos hb, if_pos hb]
    have h2 : p.length - (b + 1) = fuel := by omega
    rw [h2]

theorem filesFrom_eq (sizes : List Nat) (mm : List (List Word)) (wpe n f : Nat) :
    filesFrom sizes mm wpe n f =
      if f < n then
        readRun (mm.getD f []) wpe 0 (sizes.getD f 0) ++
          filesFrom sizes mm wpe n (f + 1)
      else [] := by
  unfold filesFrom
  rcases h : n - f with _ | fuel
  · have hb : ¬f < n := by omega
    rw [if_neg hb]
    rfl
  · have hb : f < n := by omega
    show (if f < n then _ else []) = _
    rw [if_pos hb, if_pos hb]
    have h2 : n - (f + 1) = fuel := by omega
    rw [h2]

theorem groupJoin_eq (ops : List WriteOp) (wpe B b : Nat) :
    groupJoin ops wpe B b =
      if b < B then bucketRecords ops wpe b ++ groupJoin ops wpe B (b + 1)
      else [] := by
  unfold groupJoin
  rcases h : B - b with _ | fuel
  · have hb : ¬b < B := by omega
    rw [if_neg hb]
    rfl
  · have hb : b < B := by omega
    show (if b < B then _ else []) = _
    rw [if_pos hb, if_pos hb]
    have h2 : B - (b + 1) = fuel := by omega
    rw [h2]

theorem fileGroups_eq (ops : List UWriteOp) (wpe N f : Nat) :
    fileGroups ops wpe N f =
      if f < N then fileRecords ops wpe f ++ fileGroups ops wpe N (f + 1)
      else [] := by
  unfold fileGroups
  rcases h : N - f with _ | fuel
  · have hb : ¬f < N := by omega
    rw [if_neg hb]
    rfl
  · have hb : f < N := by omega
    show (if f < N then _ else []) = _
    rw [if_pos hb, if_pos hb]
    have h2 : N - (f + 1) = fuel := by omega
    rw [h2]

/-- Exact correspondence between the bucket-skipping loop and the reader
denotation: when no emitting bucket remains the tail denotation is empty, and
when one is found the denotation splits as its run followed by the rest. -/
theorem findSortedBucket_spec (p : List PartitionRecord) (mm : List (List Word))
    (wpe : Nat) (b : Nat) :
    (findSortedBucket p p.length b = none → bucketsFrom p mm wpe b = []) ∧
    (∀ c, findSortedBucket p p.length b = some c →
      c < p.length ∧
      0 ≤ (p.getD c PartitionRecord.init).thread_id ∧
      0 < (p.getD c PartitionRecord.init).total_number ∧
      bucketsFrom p mm wpe b = bucketRun p mm wpe c ++ bucketsFrom p mm wpe (c + 1)) := by
  by_cases hb : b < p.length
  · by_cases hskip : (p.getD b PartitionRecord.init).thread_id < 0 ∨
        (p.getD b PartitionRecord.init).total_number = 0
    · have hfind : findSortedBucket p p.length b =
          findSortedBucket p p.length (b + 1) := by
        rw [findSortedBucket_eq, if_pos hb, if_pos hskip]
      have hrun : bucketRun p mm wpe b = [] := by
        unfold bucketRun
        rcases hskip with h | h
        · rw [if_neg (by omega)]
        · by_cases ht : 0 ≤ (p.getD b PartitionRecord.init).thread_id
          · rw [if_pos ht, h]
            rfl
          · rw [if_neg ht]
      have hbf : bucketsFrom p mm wpe b = bucketsFrom p mm wpe (b + 1) := by
        rw [bucketsFrom_eq, if_pos hb, hrun, List.nil_append]
      have ihb := findSortedBucket_spec p mm wpe (b + 1)
      constructor
      · intro hn
        rw [hbf]
        exact ihb.1 (hfind ▸ hn)
      · intro c hc
        have hrec := ihb.2 c (by rw [← hfind]; exact hc)
        exact ⟨hrec.1, hrec.2.1, hrec.2.2.1, by rw [hbf]; exact hrec.2.2.2⟩
    · push_neg at hskip
      have hfind : findSortedBucket p p.length b = some b := by
        rw [findSortedBucket_eq, if_pos hb,
          if_neg (by push_neg; exact hskip)]
      constructor
      · intro hn
        rw [hfind] at hn
        exact Option.noConfusion hn
      · intro c hc
        rw [hfind] at hc
        injection hc with hc
        subst hc
        refine ⟨hb, by omega, by omega, ?_⟩
        rw [bucketsFrom_eq, if_pos hb]
  · constructor
    · intro _
      rw [bucketsFrom_eq, if_neg hb]
    · intro c hc
      rw [findSortedBucket_eq, if_neg hb] at hc
      exact Option.noConfusion hc
termination_by p.length - b
decreasing_by simp_wf; omega

/-- Mirror of findSortedBucket_spec for the unsorted file walk. -/
theorem findUnsortedFile_spec (sizes : List Nat) (mm : List (List Word))
    (wpe n : Nat) (f : Nat) :
    (findUnsortedFile sizes n f = none → filesFrom sizes mm wpe n f = []) ∧
    (∀ c, findUnsortedFile sizes n f = some c →
      c < n ∧ 0 < sizes.getD c 0 ∧
      filesFrom sizes mm wpe n f =
        readRun (mm.getD c []) wpe 0 (sizes.getD c 0) ++
          filesFrom sizes mm wpe n (c + 1)) := by
  by_cases hf : f < n
  · by_cases hskip : sizes.getD f 0 = 0
    · have hfind : findUnsortedFile sizes n f = findUnsortedFile sizes n (f + 1) := by
        rw [findUnsortedFile_eq, if_pos hf, if_pos hskip]
      have hff : filesFrom sizes mm wpe n f = filesFrom sizes mm wpe n (f + 1) := by
        rw [filesFrom_eq, if_pos hf, hskip]
        rfl
      have ihf := findUnsortedFile_spec sizes mm wpe n (f + 1)
      constructor
      · intro hn
        rw [hff]
        exact ihf.1 (hfind ▸ hn)
      · intro c hc
        have hrec := ihf.2 c (by rw [← hfind]; exact hc)
        exact ⟨hrec.1, hrec.2.1, by rw [hff]; exact hrec.2.2⟩
    · have hfind : findUnsortedFile sizes n f = some f := by
        rw [findUnsortedFile_eq, if_pos hf, if_neg hskip]
      constructor
      · intro hn
        rw [hfind] at hn
        exact Option.noConfusion hn
      · intro c hc
        rw [hfind] at hc
        injection hc with hc
        subst hc
        refine ⟨hf, by omega, ?_⟩
        rw [filesFrom_eq, if_pos hf]
  · constructor
    · intro _
      rw [filesFrom_eq, if_neg hf]
    · intro c hc
      rw [findUnsortedFile_eq, if_neg hf] at hc
      exact Option.noConfusion hc
termination_by n - f
decreasing_by simp_wf; omega

/-- One NextSortedEdge call on a geometrically well-formed state either signals
exhaustion with an empty denotation, or emits exactly the head of the denotation
and preserves well-formedness. -/
theorem sorted_step (r : EdgeReader) (hok : SortedOk r) :
    (sortedRemaining r = [] ∧ (r.NextSortedEdge).1 = none) ∨
    (∃ e r2, r.NextSortedEdge = (some e, r2) ∧ SortedOk r2 ∧
      sortedRemaining r = e :: sortedRemaining r2) := by
  obtain ⟨hnb, hcase⟩ := hok
  by_cases hg : (r.num_buckets : Int) ≤ r.cur_bucket
  · left
    refine ⟨?_, ?_⟩
    · unfold sortedRemaining
      rw [if_pos hg]
    · unfold EdgeReader.NextSortedEdge
      rw [if_pos hg]
  · by_cases hvol : r.cur_vol ≤ r.cur_cnt
    · rcases hfind : findSortedBucket r.p_rec r.num_buckets (r.cur_bucket + 1).toNat
        with _ | c
      · left
        have hfind2 : findSortedBucket r.p_rec r.p_rec.length
            (r.cur_bucket + 1).toNat = none := by rw [← hnb]; exact hfind
        refine ⟨?_, ?_⟩
        · unfold sortedRemaining
          rw [if_neg hg, if_pos hvol]
          exact (findSortedBucket_spec r.p_rec r.mmaps r.words_per_edge _).1 hfind2
        · unfold EdgeReader.NextSortedEdge
          rw [if_neg hg, if_pos hvol, hfind]
      · right
        have hfind2 : findSortedBucket r.p_rec r.p_rec.length
            (r.cur_bucket + 1).toNat = some c := by rw [← hnb]; exact hfind
        obtain ⟨hclt, hctid, hctot, hcsplit⟩ :=
          (findSortedBucket_spec r.p_rec r.mmaps r.words_per_edge _).2 c hfind2
        have hcnb : ¬((r.num_buckets : Int) ≤ (c : Int)) := by omega
        have hnext : r.NextSortedEdge =
            (some (((r.mmaps.getD
                (r.p_rec.getD c PartitionRecord.init).thread_id.toNat []).drop
                (r.words_per_edge *
                  (r.p_rec.getD c PartitionRecord.init).starting_offset)).take
                r.words_per_edge),
             { r with
               cur_bucket := (c : Int), cur_cnt := 1,
               cur_vol := (r.p_rec.getD c PartitionRecord.init).total_number,
               cur_ptr := ((r.p_rec.getD c PartitionRecord.init).thread_id.toNat,
                 r.words_per_edge *
                     (r.p_rec.getD c PartitionRecord.init).starting_offset +
                   r.words_per_edge) }) := by
          unfold EdgeReader.NextSortedEdge
          rw [if_neg hg, if_pos hvol, hfind]
          rfl
        refine ⟨_, _, hnext, ?_, ?_⟩
        · refine ⟨hnb, ?_⟩
          by_cases h1 : (r.p_rec.getD c PartitionRecord.init).total_number ≤ 1
          · left
            exact ⟨h1, by show (-1 : Int) ≤ (c : Int); omega⟩
          · right
            refine ⟨c, rfl, hclt, hctid, rfl,
              by show 1 < (r.p_rec.getD c PartitionRecord.init).total_number
                 omega, ?_⟩
            show ((r.p_rec.getD c PartitionRecord.init).thread_id.toNat,
                r.words_per_edge *
                    (r.p_rec.getD c PartitionRecord.init).starting_offset +
                  r.words_per_edge) =
              ((r.p_rec.getD c PartitionRecord.init).thread_id.toNat,
                r.words_per_edge *
                    (r.p_rec.getD c PartitionRecord.init).starting_offset +
                  r.words_per_edge * 1)
            rw [Nat.mul_one]
        · unfold sortedRemaining
          rw [if_neg hg, if_pos hvol, hcsplit]
          obtain ⟨k, hk⟩ : ∃ k, (r.p_rec.getD c PartitionRecord.init).total_number
              = k + 1 := ⟨(r.p_rec.getD c PartitionRecord.init).total_number - 1,
                by omega⟩
          unfold bucketRun
          simp only
          rw [if_pos hctid]
          conv_lhs => rw [hk]
          rw [if_neg hcnb]
          by_cases h1 : k = 0
          · subst h1
            rw [if_pos (by omega)]
            have hc1 : ((c : Int) + 1).toNat = c + 1 := by omega
            rw [hc1]
            rfl
          · rw [if_neg (by omega)]
            have hc0 : ((c : Int)).toNat = c := rfl
            rw [hc0]
            have harith : r.words_per_edge *
                  (r.p_rec.getD c PartitionRecord.init).starting_offset +
                r.words_per_edge * 1 =
                r.words_per_edge *
                  (r.p_rec.getD c PartitionRecord.init).starting_offset +
                r.words_per_edge := by ring
            rw [harith]
            have hsub : (r.p_rec.getD c PartitionRecord.init).total_number - 1 = k := by
              omega
            rw [hsub]
            rfl
    · rcases hcase with ⟨hvol2, _⟩ | ⟨b, hcb, hblt, htid, hvolb, hcnt, hptr⟩
      · exact absurd hvol2 hvol
      right
      have hnext : r.NextSortedEdge =
          (some (((r.mmaps.getD
              (r.p_rec.getD b PartitionRecord.init).thread_id.toNat []).drop
              (r.words_per_edge *
                  (r.p_rec.getD b PartitionRecord.init).starting_offset +
                r.words_per_edge * r.cur_cnt)).take r.words_per_edge),
           { r with
             cur_cnt := r.cur_cnt + 1,
             cur_ptr := ((r.p_rec.getD b PartitionRecord.init).thread_id.toNat,
               r.words_per_edge *
                   (r.p_rec.getD b PartitionRecord.init).starting_offset +
                 r.words_per_edge * r.cur_cnt + r.words_per_edge) }) := by
        unfold EdgeReader.NextSortedEdge
        rw [if_neg hg, if_neg hvol]
        unfold EdgeReader.emitEdge
        rw [hptr]
      refine ⟨_, _, hnext, ?_, ?_⟩
      · refine ⟨hnb, ?_⟩
        by_cases h1 : r.cur_vol ≤ r.cur_cnt + 1
        · left
          refine ⟨h1, by show (-1 : Int) ≤ r.cur_bucket; omega⟩
        · right
          refine ⟨b, hcb, hblt, htid, hvolb,
            by show r.cur_cnt + 1 < r.cur_vol; omega, ?_⟩
          show ((r.p_rec.getD b PartitionRecord.init).thread_id.toNat,
              r.words_per_edge *
                  (r.p_rec.getD b PartitionRecord.init).starting_offset +
                r.words_per_edge * r.cur_cnt + r.words_per_edge) =
            ((r.p_rec.getD b PartitionRecord.init).thread_id.toNat,
              r.words_per_edge *
                  (r.p_rec.getD b PartitionRecord.init).starting_offset +
                r.words_per_edge * (r.cur_cnt + 1))
          have harith : r.words_per_edge *
                (r.p_rec.getD b PartitionRecord.init).starting_offset +
              r.words_per_edge * r.cur_cnt + r.words_per_edge =
              r.words_per_edge *
                (r.p_rec.getD b PartitionRecord.init).starting_offset +
              r.words_per_edge * (r.cur_cnt + 1) := by ring
          rw [harith]
      · have hb0 : (r.cur_bucket).toNat = b := by rw [hcb]; rfl
        obtain ⟨j, hj⟩ : ∃ j, r.cur_vol - r.cur_cnt = j + 1 :=
          ⟨r.cur_vol - r.cur_cnt - 1, by omega⟩
        unfold sortedRemaining
        rw [if_neg hg, if_neg hvol]
        simp only
        rw [hb0]
        conv_lhs => rw [hj]
        by_cases h1 : r.cur_vol ≤ r.cur_cnt + 1
        · have hj0 : j = 0 := by omega
          subst hj0
          rw [if_pos h1]
          have hc1 : (r.cur_bucket + 1).toNat = b + 1 := by rw [hcb]; omega
          rw [hc1, if_neg hg]
          rfl
        · rw [if_neg h1, if_neg hg]
          have harith : r.words_per_edge *
                (r.p_rec.getD b PartitionRecord.init).starting_offset +
              r.words_per_edge * (r.cur_cnt + 1) =
              r.words_per_edge *
                (r.p_rec.getD b PartitionRecord.init).starting_offset +
              r.words_per_edge * r.cur_cnt + r.words_per_edge := by ring
          rw [harith]
          have hsub : r.cur_vol - (r.cur_cnt + 1) = j := by omega
          rw [hsub]
          rfl

/-- With enough fuel, pulling from a well-formed sorted reader returns exactly its
denotation (and in particular hits the null sentinel right after it). -/
theorem readAll_sorted_of_ok (fuel : Nat) : ∀ r : EdgeReader, SortedOk r →
    (sortedRemaining r).length < fuel → readAllSorted r fuel = sortedRemaining r := by
  induction fuel with
  | zero => intro r _ h; omega
  | succ n ih =>
    intro r hok hlen
    rcases sorted_step r hok with ⟨hempty, hnone⟩ | ⟨e, r2, hn, hok2, hrem⟩
    · rcases hp : r.NextSortedEdge with ⟨o, r3⟩
      rw [hp] at hnone
      simp only at hnone
      subst hnone
      have hred : readAllSorted r (n + 1) = [] := by
        show (match r.NextSortedEdge with
          | (none, _) => []
          | (some e, r2) => e :: readAllSorted r2 n) = []
        rw [hp]
      rw [hred, hempty]
    · have hred : readAllSorted r (n + 1) = e :: readAllSorted r2 n := by
        show (match r.NextSortedEdge with
          | (none, _) => []
          | (some e, r2) => e :: readAllSorted r2 n) = e :: readAllSorted r2 n
        rw [hn]
      have hlen2 : (sortedRemaining r2).length < n := by
        rw [hrem] at hlen
        simpa using hlen
      rw [hred, hrem, ih r2 hok2 hlen2]

/-- One NextUnsortedEdge call on a well-formed state either signals exhaustion
with an empty denotation, or emits exactly the head of the denotation and
preserves well-formedness. -/
theorem unsorted_step (r : EdgeReader) (hok : UnsortedOk r) :
    (unsortedRemaining r = [] ∧ (r.NextUnsortedEdge).1 = none) ∨
    (∃ e r2, r.NextUnsortedEdge = (some e, r2) ∧ UnsortedOk r2 ∧
      unsortedRemaining r = e :: unsortedRemaining r2) := by
  by_cases hg : (r.num_files : Int) ≤ r.cur_file_num
  · left
    refine ⟨?_, ?_⟩
    · unfold unsortedRemaining
      rw [if_pos hg]
    · unfold EdgeReader.NextUnsortedEdge
      rw [if_pos hg]
  · by_cases hvol : r.cur_vol ≤ r.cur_cnt
    · rcases hfind : findUnsortedFile r.file_sizes r.num_files
        (r.cur_file_num + 1).toNat with _ | c
      · left
        refine ⟨?_, ?_⟩
        · unfold unsortedRemaining
          rw [if_neg hg, if_pos hvol]
          exact (findUnsortedFile_spec r.file_sizes r.mmaps r.words_per_edge
            r.num_files _).1 hfind
        · unfold EdgeReader.NextUnsortedEdge
          rw [if_neg hg, if_pos hvol, hfind]
      · right
        obtain ⟨hclt, hctot, hcsplit⟩ := (findUnsortedFile_spec r.file_sizes
          r.mmaps r.words_per_edge r.num_files _).2 c hfind
        have hcnb : ¬((r.num_files : Int) ≤ (c : Int)) := by omega
        have hnext : r.NextUnsortedEdge =
            (some ((r.mmaps.getD c []).drop 0 |>.take r.words_per_edge),
             { r with
               cur_file_num := (c : Int), cur_cnt := 1,
               cur_vol := r.file_sizes.getD c 0,
               cur_ptr := (c, 0 + r.words_per_edge) }) := by
          unfold EdgeReader.NextUnsortedEdge
          rw [if_neg hg, if_pos hvol, hfind]
          rfl
        refine ⟨_, _, hnext, ?_, ?_⟩
        · by_cases h1 : r.file_sizes.getD c 0 ≤ 1
          · left
            exact ⟨h1, by show (-1 : Int) ≤ (c : Int); omega⟩
          · right
            refine ⟨c, rfl, hclt, rfl,
              by show 1 < r.file_sizes.getD c 0; omega, ?_⟩
            show ((c : Nat), 0 + r.words_per_edge) = (c, r.words_per_edge * 1)
            have : 0 + r.words_per_edge = r.words_per_edge * 1 := by ring
            rw [this]
        · unfold unsortedRemaining
          rw [if_neg hg, if_pos hvol, hcsplit]
          obtain ⟨k, hk⟩ : ∃ k, r.file_sizes.getD c 0 = k + 1 :=
            ⟨r.file_sizes.getD c 0 - 1, by omega⟩
          conv_lhs => rw [hk]
          rw [if_neg hcnb]
          by_cases h1 : k = 0
          · subst h1
            rw [if_pos (show r.file_sizes.getD c 0 ≤ 1 by omega)]
            have hc1 : ((c : Int) + 1).toNat = c + 1 := by omega
            rw [hc1]
            rfl
          · rw [if_neg (show ¬r.file_sizes.getD c 0 ≤ 1 by omega)]
            have hc0 : ((c : Int)).toNat = c := rfl
            rw [hc0]
            have harith : r.words_per_edge * 1 = 0 + r.words_per_edge := by ring
            rw [harith]
            have hsub : r.file_sizes.getD c 0 - 1 = k := by omega
            rw [hsub]
            rfl
    · rcases hok with ⟨hvol2, _⟩ | ⟨f, hcf, hflt, hvolf, hcnt, hptr⟩
      · exact absurd hvol2 hvol
      right
      have hnext : r.NextUnsortedEdge =
          (some (((r.mmaps.getD f []).drop
              (r.words_per_edge * r.cur_cnt)).take r.words_per_edge),
           { r with
             cur_cnt := r.cur_cnt + 1,
             cur_ptr := (f, r.words_per_edge * r.cur_cnt + r.words_per_edge) }) := by
        unfold EdgeReader.NextUnsortedEdge
        rw [if_neg hg, if_neg hvol]
        unfold EdgeReader.emitEdge
        rw [hptr]
      refine ⟨_, _, hnext, ?_, ?_⟩
      · by_cases h1 : r.cur_vol ≤ r.cur_cnt + 1
        · left
          refine ⟨h1, by show (-1 : Int) ≤ r.cur_file_num; omega⟩
        · right
          refine ⟨f, hcf, hflt, hvolf,
            by show r.cur_cnt + 1 < r.cur_vol; omega, ?_⟩
          show ((f : Nat), r.words_per_edge * r.cur_cnt + r.words_per_edge) =
            (f, r.words_per_edge * (r.cur_cnt + 1))
          have harith : r.words_per_edge * r.cur_cnt + r.words_per_edge =
              r.words_per_edge * (r.cur_cnt + 1) := by ring
          rw [harith]
      · have hf0 : (r.cur_file_num).toNat = f := by rw [hcf]; rfl
        obtain ⟨j, hj⟩ : ∃ j, r.cur_vol - r.cur_cnt = j + 1 :=
          ⟨r.cur_vol - r.cur_cnt - 1, by omega⟩
        unfold unsortedRemaining
        rw [if_neg hg, if_neg hvol]
        simp only
        rw [hf0]
        conv_lhs => rw [hj]
        by_cases h1 : r.cur_vol ≤ r.cur_cnt + 1
        · have hj0 : j = 0 := by omega
          subst hj0
          rw [if_pos h1]
          have hc1 : (r.cur_file_num + 1).toNat = f + 1 := by rw [hcf]; omega
          rw [hc1, if_neg hg]
          rfl
        · rw [if_neg h1, if_neg hg]
          have harith : r.words_per_edge * (r.cur_cnt + 1) =
              r.words_per_edge * r.cur_cnt + r.words_per_edge := by ring
          rw [harith]
          have hsub : r.cur_vol - (r.cur_cnt + 1) = j := by omega
          rw [hsub]
          rfl

/-- With enough fuel, pulling from a well-formed unsorted reader returns exactly
its denotation. -/
theorem readAll_unsorted_of_ok (fuel : Nat) : ∀ r : EdgeReader, UnsortedOk r →
    (unsortedRemaining r).length < fuel →
    readAllUnsorted r fuel = unsortedRemaining r := by
  induction fuel with
  | zero => intro r _ h; omega
  | succ n ih =>
    intro r hok hlen
    rcases unsorted_step r hok with ⟨hempty, hnone⟩ | ⟨e, r2, hn, hok2, hrem⟩
    · rcases hp : r.NextUnsortedEdge with ⟨o, r3⟩
      rw [hp] at hnone
      simp only at hnone
      subst hnone
      have hred : readAllUnsorted r (n + 1) = [] := by
        show (match r.NextUnsortedEdge with
          | (none, _) => []
          | (some e, r2) => e :: readAllUnsorted r2 n) = []
        rw [hp]
      rw [hred, hempty]
    · have hred : readAllUnsorted r (n + 1) = e :: readAllUnsorted r2 n := by
        show (match r.NextUnsortedEdge with
          | (none, _) => []
          | (some e, r2) => e :: readAllUnsorted r2 n) = e :: readAllUnsorted r2 n
        rw [hn]
      have hlen2 : (unsortedRemaining r2).length < n := by
        rw [hrem] at hlen
        simpa using hlen
      rw [hred, hrem, ih r2 hok2 hlen2]

-- ========== helper lemmas: filtered-run bookkeeping ==========

theorem fileRecords_append_eq (ops : List UWriteOp) (op : UWriteOp) (wpe t : Nat)
    (h : op.tid = t) :
    fileRecords (ops ++ [op]) wpe t =
      fileRecords ops wpe t ++ [op.edge.take wpe] := by
  unfold fileRecords
  rw [List.filter_append]
  simp [h]

theorem fileRecords_append_ne (ops : List UWriteOp) (op : UWriteOp) (wpe t : Nat)
    (h : ¬op.tid = t) :
    fileRecords (ops ++ [op]) wpe t = fileRecords ops wpe t := by
  unfold fileRecords
  rw [List.filter_append]
  simp [h]

theorem ufilter_append_eq (ops : List UWriteOp) (op : UWriteOp) (t : Nat)
    (h : op.tid = t) :
    (ops ++ [op]).filter (fun o => o.tid = t) =
      ops.filter (fun o => o.tid = t) ++ [op] := by
  rw [List.filter_append]
  simp [h]

theorem ufilter_append_ne (ops : List UWriteOp) (op : UWriteOp) (t : Nat)
    (h : ¬op.tid = t) :
    (ops ++ [op]).filter (fun o => o.tid = t) =
      ops.filter (fun o => o.tid = t) := by
  rw [List.filter_append]
  simp [h]

theorem getD_range_map {α : Type} (n t : Nat) (f : Nat → α) (d : α) (h : t < n) :
    ((List.range n).map f).getD t d = f t := by
  induction n generalizing t f with
  | zero => omega
  | succ m ih =>
    rw [List.range_succ_eq_map, List.map_cons, List.map_map]
    cases t with
    | zero => rfl
    | succ t2 =>
      have h2 : t2 < m := by omega
      show ((List.range m).map (f ∘ Nat.succ)).getD t2 d = f (t2 + 1)
      exact ih t2 (f ∘ Nat.succ) h2

-- ========== unsorted writer: invariant ==========

theorem write_unsorted_inv (wpe N : Nat) (ops : List UWriteOp) (w : EdgeWriter)
    (inv : UnsortedInv wpe N ops w) (op : UWriteOp) (w2 : EdgeWriter)
    (hw : w.write_unsorted op.edge op.tid = some w2) :
    UnsortedInv wpe N (ops ++ [op]) w2 := by
  unfold EdgeWriter.write_unsorted at hw
  by_cases ht : op.tid < w.num_unsorted_edges.length
  case neg =>
    rw [if_neg ht] at hw
    exact Option.noConfusion hw
  rw [if_pos ht] at hw
  injection hw with hw
  subst hw
  have htN : op.tid < N := by rw [← inv.len_cnt]; exact ht
  have htF : op.tid < w.file_contents.length := by rw [inv.len_files]; exact htN
  refine
    { hwpe := inv.hwpe, hN := inv.hN, hB := inv.hB, huns := inv.huns,
      hopen := inv.hopen, hinfo := inv.hinfo, hprec := inv.hprec,
      len_files := ?_, len_cnt := ?_, hops := ?_, file_eq := ?_, cnt_eq := ?_ }
  · rw [length_listModify]; exact inv.len_files
  · rw [length_listModify]; exact inv.len_cnt
  · intro o ho
    rcases List.mem_append.1 ho with h | h
    · exact inv.hops o h
    · rcases List.mem_singleton.1 h with rfl
      exact htN
  · intro t htt
    by_cases he : op.tid = t
    · subst he
      rw [getD_listModify_eq _ _ _ _ htF, inv.file_eq op.tid htt,
        fileRecords_append_eq ops op wpe op.tid rfl, List.flatten_append]
      simp [inv.hwpe]
    · rw [getD_listModify_ne _ _ _ _ _ he, inv.file_eq t htt,
        fileRecords_append_ne ops op wpe t he]
  · intro t htt
    by_cases he : op.tid = t
    · subst he
      rw [getD_listModify_eq _ _ _ _ ht, inv.cnt_eq op.tid htt,
        ufilter_append_eq ops op op.tid rfl]
      simp
    · rw [getD_listModify_ne _ _ _ _ _ he, inv.cnt_eq t htt,
        ufilter_append_ne ops op t he]

theorem runUnsorted_inv (wpe N : Nat) : ∀ (rest pre : List UWriteOp)
    (w wf : EdgeWriter), UnsortedInv wpe N pre w → runUnsorted w rest = some wf →
    UnsortedInv wpe N (pre ++ rest) wf := by
  intro rest
  induction rest with
  | nil =>
    intro pre w wf inv h
    simp only [runUnsorted] at h
    injection h with h
    subst h
    simpa using inv
  | cons op rest ih =>
    intro pre w wf inv h
    simp only [runUnsorted] at h
    rcases ho : w.write_unsorted op.edge op.tid with _ | w1
    · rw [ho] at h
      exact Option.noConfusion h
    · rw [ho] at h
      have inv1 := write_unsorted_inv wpe N pre w inv op w1 ho
      have hres := ih (pre ++ [op]) w1 wf inv1 h
      rw [List.append_assoc] at hres
      simpa using hres

theorem unsorted_init_inv (k N : Nat) (w0 : EdgeWriter)
    (h : (((EdgeWriter.new.set_kmer_size k).set_num_threads
        N).set_unsorted).init_files = some w0) :
    UnsortedInv w0.words_per_edge N [] w0 := by
  unfold EdgeWriter.init_files EdgeWriter.set_unsorted EdgeWriter.set_num_threads
    EdgeWriter.set_kmer_size EdgeWriter.new at h
  injection h with h
  subst h
  refine
    { hwpe := rfl, hN := rfl, hB := rfl, huns := rfl, hopen := rfl,
      hinfo := rfl, hprec := rfl,
      len_files := by simp, len_cnt := by simp,
      hops := by intro o ho; simp at ho,
      file_eq := ?_, cnt_eq := ?_ }
  · intro t ht
    rw [getD_replicate _ _ _ _ ht]
    rfl
  · intro t ht
    rw [getD_replicate _ _ _ _ ht]
    rfl

-- ========== helper lemmas: opening a store ==========

theorem read_info_some (r : EdgeReader) (info : EdgeInfo)
    (hc : info.bucket_recs.length = info.num_bucket ∧
      (info.num_bucket = 0 → info.num_threads ≤ info.unsorted_counts.length)) :
    ∃ rd, r.read_info info = some rd := by
  unfold EdgeReader.read_info
  rw [if_pos hc]
  exact ⟨_, rfl⟩

theorem read_info_fields (r : EdgeReader) (info : EdgeInfo) (rd : EdgeReader)
    (h : r.read_info info = some rd) :
    rd.words_per_edge = info.words_per_edge ∧
    rd.num_files = info.num_threads ∧
    rd.num_buckets = info.num_bucket ∧
    rd.p_rec = info.bucket_recs ∧
    rd.is_opened = r.is_opened ∧
    rd.file_sizes =
      (if info.num_bucket = 0 then
        (List.range info.num_threads).map (fun i => info.unsorted_counts.getD i 0)
      else
        info.bucket_recs.foldl
          (fun fs pr => listAddAt fs pr.thread_id pr.total_number)
          (List.replicate info.num_threads 0)) := by
  unfold EdgeReader.read_info at h
  by_cases hc : info.bucket_recs.length = info.num_bucket ∧
      (info.num_bucket = 0 → info.num_threads ≤ info.unsorted_counts.length)
  · rw [if_pos hc] at h
    injection h with h
    subst h
    exact ⟨rfl, rfl, rfl, rfl, rfl, rfl⟩
  · rw [if_neg hc] at h
    exact Option.noConfusion h

theorem init_files_some (r : EdgeReader) (disk : List (List Word))
    (h : r.is_opened = false) : ∃ rd, r.init_files disk = some rd := by
  unfold EdgeReader.init_files
  rw [if_neg (by rw [h]; simp)]
  exact ⟨_, rfl⟩

theorem init_files_fields (r : EdgeReader) (disk : List (List Word))
    (rd : EdgeReader) (h : r.init_files disk = some rd) :
    rd.mmaps = (List.range r.num_files).map
      (fun i => (disk.getD i []).take (r.file_sizes.getD i 0 * r.words_per_edge)) ∧
    rd.cur_cnt = 0 ∧ rd.cur_vol = 0 ∧ rd.cur_bucket = -1 ∧
    rd.cur_file_num = (if r.num_buckets = 0 then -1 else r.cur_file_num) ∧
    rd.p_rec = r.p_rec ∧ rd.words_per_edge = r.words_per_edge ∧
    rd.num_files = r.num_files ∧ rd.num_buckets = r.num_buckets ∧
    rd.file_sizes = r.file_sizes := by
  unfold EdgeReader.init_files at h
  by_cases ho : r.is_opened
  · rw [if_pos ho] at h
    exact Option.noConfusion h
  · rw [if_neg ho] at h
    injection h with h
    subst h
    exact ⟨rfl, rfl, rfl, rfl, rfl, rfl, rfl, rfl, rfl, rfl⟩

-- ========== helper lemmas: unsorted store denotation vs write history ==========

theorem fileRecords_length_wpe (ops : List UWriteOp) (wpe t : Nat)
    (hlen : ∀ op ∈ ops, op.edge.length = wpe) :
    ∀ x ∈ fileRecords ops wpe t, x.length = wpe := by
  intro x hx
  unfold fileRecords at hx
  rcases List.mem_map.1 hx with ⟨op, hop, rfl⟩
  have := hlen op (List.mem_of_mem_filter hop)
  rw [List.length_take, this]
  omega

theorem fileRecords_length_count (ops : List UWriteOp) (wpe t : Nat) :
    (fileRecords ops wpe t).length =
      (ops.filter (fun o => o.tid = t)).length := by
  unfold fileRecords
  rw [List.length_map]

theorem filesFrom_eq_fileGroups (ops : List UWriteOp) (wpe N : Nat)
    (sizes : List Nat) (mm : List (List Word))
    (hlen : ∀ op ∈ ops, op.edge.length = wpe)
    (hsizes : ∀ t, t < N →
      sizes.getD t 0 = (ops.filter (fun o => o.tid = t)).length)
    (hmm : ∀ t, t < N → mm.getD t [] = (fileRecords ops wpe t).flatten)
    (f : Nat) :
    filesFrom sizes mm wpe N f = fileGroups ops wpe N f := by
  by_cases hf : f < N
  · rw [filesFrom_eq, if_pos hf, fileGroups_eq, if_pos hf,
      filesFrom_eq_fileGroups ops wpe N sizes mm hlen hsizes hmm (f + 1)]
    congr 1
    rw [hmm f hf, hsizes f hf]
    have h0 : readRun (fileRecords ops wpe f).flatten wpe (wpe * 0)
        ((ops.filter (fun o => o.tid = f)).length) =
        ((fileRecords ops wpe f).drop 0).take
          ((ops.filter (fun o => o.tid = f)).length) :=
      readRun_flatten_slice wpe _ 0 _ (fileRecords_length_wpe ops wpe f hlen)
        (by rw [fileRecords_length_count]; omega)
    rw [Nat.mul_zero] at h0
    rw [h0, List.drop_zero, ← fileRecords_length_count, List.take_length]
  · rw [filesFrom_eq, if_neg hf, fileGroups_eq, if_neg hf]
termination_by N - f
decreasing_by simp_wf; omega

theorem fileRecords_cons_eq (op : UWriteOp) (rest : List UWriteOp) (wpe t : Nat)
    (h : op.tid = t) :
    fileRecords (op :: rest) wpe t =
      op.edge.take wpe :: fileRecords rest wpe t := by
  unfold fileRecords
  simp [List.filter_cons, h]

theorem fileRecords_cons_ne (op : UWriteOp) (rest : List UWriteOp) (wpe t : Nat)
    (h : ¬op.tid = t) :
    fileRecords (op :: rest) wpe t = fileRecords rest wpe t := by
  unfold fileRecords
  simp [List.filter_cons, h]

theorem fileGroups_cons_skip (op : UWriteOp) (rest : List UWriteOp) (wpe N : Nat)
    (b : Nat) (hb : op.tid < b) :
    fileGroups (op :: rest) wpe N b = fileGroups rest wpe N b := by
  by_cases hbN : b < N
  · conv_lhs => rw [fileGroups_eq]
    conv_rhs => rw [fileGroups_eq]
    rw [if_pos hbN, if_pos hbN, fileRecords_cons_ne op rest wpe b (by omega),
      fileGroups_cons_skip op rest wpe N (b + 1) (by omega)]
  · conv_lhs => rw [fileGroups_eq]
    conv_rhs => rw [fileGroups_eq]
    rw [if_neg hbN, if_neg hbN]
termination_by N - b
decreasing_by simp_wf; omega

theorem fileGroups_cons_perm (op : UWriteOp) (rest : List UWriteOp) (wpe N : Nat)
    (b : Nat) (hb : b ≤ op.tid) (hN : op.tid < N) :
    (fileGroups (op :: rest) wpe N b).Perm
      (op.edge.take wpe :: fileGroups rest wpe N b) := by
  have hbN : b < N := by omega
  by_cases he : op.tid = b
  · conv_lhs => rw [fileGroups_eq]
    rw [if_pos hbN, fileRecords_cons_eq op rest wpe b he,
      fileGroups_cons_skip op rest wpe N (b + 1) (by omega)]
    conv_rhs => rw [fileGroups_eq]
    rw [if_pos hbN]
    exact List.Perm.refl _
  · conv_lhs => rw [fileGroups_eq]
    rw [if_pos hbN, fileRecords_cons_ne op rest wpe b he]
    have ih := fileGroups_cons_perm op rest wpe N (b + 1) (by omega) hN
    refine List.Perm.trans (List.Perm.append_left _ ih) ?_
    refine List.Perm.trans List.perm_middle ?_
    have hrw : fileRecords rest wpe b ++ fileGroups rest wpe N (b + 1) =
        fileGroups rest wpe N b := by
      conv_rhs => rw [fileGroups_eq]
      rw [if_pos hbN]
    rw [hrw]
termination_by N - b
decreasing_by simp_wf; omega

theorem fileGroups_nil (wpe N b : Nat) : fileGroups [] wpe N b = [] := by
  by_cases hb : b < N
  · rw [fileGroups_eq, if_pos hb, fileGroups_nil wpe N (b + 1)]
    rfl
  · rw [fileGroups_eq, if_neg hb]
termination_by N - b
decreasing_by simp_wf; omega

theorem fileGroups_perm (ops : List UWriteOp) (wpe N : Nat)
    (h : ∀ op ∈ ops, op.tid < N) :
    (fileGroups ops wpe N 0).Perm (ops.map (fun op => op.edge.take wpe)) := by
  induction ops with
  | nil => rw [fileGroups_nil]; rfl
  | cons op rest ih =>
    have h1 := fileGroups_cons_perm op rest wpe N 0 (by omega) (h op (by simp))
    refine h1.trans ?_
    exact List.Perm.cons _ (ih (fun o ho => h o (by simp [ho])))

/-- C2: an unsorted store written by any interleaving of write_unsorted calls and
closed reads back, via NextUnsortedEdge, as the per-file runs in ascending file
index, each file in write order, followed by the null sentinel; the whole output
is a permutation of the multiset written. -/
theorem c2_unsorted_round_trip (k N : Nat) (ops : List UWriteOp)
    (w0 wf : EdgeWriter)
    (hw0 : (((EdgeWriter.new.set_kmer_size k).set_num_threads
      N).set_unsorted).init_files = some w0)
    (hlen : ∀ op ∈ ops, op.edge.length = w0.words_per_edge)
    (hrun : runUnsorted w0 ops = some wf) :
    ∃ info rd,
      (wf.destroy).info_file = some info ∧
      (EdgeReader.new.read_info info).bind
        (fun r1 => r1.init_files (wf.destroy).file_contents) = some rd ∧
      (∀ fuel, (fileGroups ops w0.words_per_edge N 0).length < fuel →
        readAllUnsorted rd fuel = fileGroups ops w0.words_per_edge N 0) ∧
      (fileGroups ops w0.words_per_edge N 0).Perm
        (ops.map (fun op => op.edge.take w0.words_per_edge)) := by
  have inv0 := unsorted_init_inv k N w0 hw0
  have inv := runUnsorted_inv w0.words_per_edge N ops [] w0 wf inv0 hrun
  rw [List.nil_append] at inv
  have hdest : wf.destroy = { wf with
      info_file := some ⟨wf.kmer_size, wf.words_per_edge, wf.num_threads,
        wf.num_buckets, wf.num_unsorted_edges.sum, wf.p_rec,
        wf.num_unsorted_edges⟩,
      cur_bucket := [], cur_num_edges := [], p_rec := [], is_opened := false } := by
    unfold EdgeWriter.destroy
    rw [if_pos inv.hopen]
    simp only [inv.huns]
    rfl
  have hinfo : (wf.destroy).info_file = some
      ⟨wf.kmer_size, w0.words_per_edge, N, 0, wf.num_unsorted_edges.sum, [],
        wf.num_unsorted_edges⟩ := by
    rw [hdest]
    show some _ = some _
    rw [inv.hwpe, inv.hN, inv.hB, inv.hprec]
  obtain ⟨rd1, hrd1⟩ := read_info_some EdgeReader.new
    ⟨wf.kmer_size, w0.words_per_edge, N, 0, wf.num_unsorted_edges.sum, [],
      wf.num_unsorted_edges⟩
    ⟨rfl, fun _ => by show N ≤ wf.num_unsorted_edges.length; rw [inv.len_cnt]⟩
  obtain ⟨hr_wpe, hr_nf, hr_nb, hr_prec, hr_open, hr_sizes⟩ :=
    read_info_fields _ _ _ hrd1
  obtain ⟨rd2, hrd2⟩ := init_files_some rd1 (wf.destroy).file_contents
    (by rw [hr_open]; rfl)
  obtain ⟨hm_mm, hm_cnt, hm_vol, hm_cb, hm_cf, hm_prec, hm_wpe, hm_nf, hm_nb,
    hm_sizes⟩ := init_files_fields _ _ _ hrd2
  have hnb0 : rd1.num_buckets = 0 := hr_nb
  have hnf : rd1.num_files = N := hr_nf
  have hwpe1 : rd1.words_per_edge = w0.words_per_edge := hr_wpe
  have hcf0 : rd2.cur_file_num = -1 := by
    rw [hm_cf, hnb0]
    rfl
  have hnf2 : rd2.num_files = N := by rw [hm_nf, hnf]
  have hwpe2 : rd2.words_per_edge = w0.words_per_edge := by rw [hm_wpe, hwpe1]
  have hsizes1 : rd1.file_sizes =
      (List.range N).map (fun i => wf.num_unsorted_edges.getD i 0) := by
    rw [hr_sizes]
    rfl
  have hsz : ∀ t, t < N →
      rd2.file_sizes.getD t 0 = (ops.filter (fun o => o.tid = t)).length := by
    intro t ht
    rw [hm_sizes, hsizes1, getD_range_map N t _ 0 ht]
    exact inv.cnt_eq t ht
  have hdisk : (wf.destroy).file_contents = wf.file_contents := by rw [hdest]
  have hmmp : ∀ t, t < N →
      rd2.mmaps.getD t [] = (fileRecords ops w0.words_per_edge t).flatten := by
    intro t ht
    rw [hm_mm, getD_range_map rd1.num_files t _ []
      (show t < rd1.num_files by rw [hnf]; exact ht)]
    rw [hdisk, hwpe1]
    have hfile := inv.file_eq t ht
    rw [hfile]
    have hsz1 : rd1.file_sizes.getD t 0 =
        (ops.filter (fun o => o.tid = t)).length := by
      rw [hsizes1, getD_range_map N t _ 0 ht]
      exact inv.cnt_eq t ht
    rw [hsz1]
    have hfl : ((fileRecords ops w0.words_per_edge t).flatten).length =
        w0.words_per_edge * (ops.filter (fun o => o.tid = t)).length := by
      rw [flatten_length_const w0.words_per_edge _
        (fileRecords_length_wpe ops w0.words_per_edge t hlen),
        fileRecords_length_count]
    have hmc : (ops.filter (fun o => o.tid = t)).length * w0.words_per_edge =
        ((fileRecords ops w0.words_per_edge t).flatten).length := by
      rw [hfl]; ring
    rw [hmc, List.take_length]
  refine ⟨_, rd2, hinfo, ?_, ?_, ?_⟩
  · rw [hrd1]
    exact hrd2
  · intro fuel hfuel
    have hok : UnsortedOk rd2 := Or.inl ⟨by rw [hm_vol, hm_cnt], by rw [hcf0]⟩
    have hrem : unsortedRemaining rd2 =
        filesFrom rd2.file_sizes rd2.mmaps rd2.words_per_edge rd2.num_files 0 := by
      unfold unsortedRemaining
      rw [if_neg (by rw [hnf2, hcf0]; omega),
        if_pos (by rw [hm_vol, hm_cnt])]
      have ht0 : (rd2.cur_file_num + 1).toNat = 0 := by rw [hcf0]; rfl
      rw [ht0]
    have hremG : unsortedRemaining rd2 = fileGroups ops w0.words_per_edge N 0 := by
      rw [hrem, hwpe2, hnf2]
      exact filesFrom_eq_fileGroups ops w0.words_per_edge N rd2.file_sizes
        rd2.mmaps hlen hsz hmmp 0
    rw [readAll_unsorted_of_ok fuel rd2 hok (by rw [hremG]; exact hfuel), hremG]
  · exact fileGroups_perm ops w0.words_per_edge N (fun op hop => inv.hops op hop)

theorem c2_unsorted_round_trip_witness :
    fileGroups witnessUOps witnessUWriter0.words_per_edge 2 0 =
      [[1, 2], [3, 4], [5, 6]] ∧
    (∃ info rd,
      (witnessUWriter.destroy).info_file = some info ∧
      (EdgeReader.new.read_info info).bind
        (fun r1 => r1.init_files (witnessUWriter.destroy).file_contents) =
        some rd ∧
      (∀ fuel,
        (fileGroups witnessUOps witnessUWriter0.words_per_edge 2 0).length <
          fuel →
        readAllUnsorted rd fuel =
          fileGroups witnessUOps witnessUWriter0.words_per_edge 2 0) ∧
      (fileGroups witnessUOps witnessUWriter0.words_per_edge 2 0).Perm
        (witnessUOps.map
          (fun op => op.edge.take witnessUWriter0.words_per_edge))) :=
  ⟨by decide,
   c2_unsorted_round_trip 21 2 witnessUOps witnessUWriter0 witnessUWriter rfl
     (by decide) rfl⟩

-- ========== helper lemmas: slices of append ==========

theorem drop_append_le {α : Type} (l l2 : List α) (s : Nat) (h : s ≤ l.length) :
    (l ++ l2).drop s = l.drop s ++ l2 := by
  induction l generalizing s with
  | nil =>
    have : s = 0 := by simpa using h
    subst this
    rfl
  | cons x xs ih =>
    cases s with
    | zero => rfl
    | succ s2 =>
      have h2 : s2 ≤ xs.length := by simpa using h
      simpa using ih s2 h2

theorem drop_take_append {α : Type} (l l2 : List α) (s k : Nat)
    (h : s + k ≤ l.length) :
    ((l ++ l2).drop s).take k = (l.drop s).take k := by
  rw [drop_append_le l l2 s (by omega),
    List.take_append_of_le_length (by rw [List.length_drop]; omega)]

-- ========== helper lemmas: sorted write history filters ==========

theorem wfilter_tid_append_eq (ops : List WriteOp) (op : WriteOp) (t : Nat)
    (h : op.tid = t) :
    (ops ++ [op]).filter (fun o => o.tid = t) =
      ops.filter (fun o => o.tid = t) ++ [op] := by
  rw [List.filter_append]
  simp [h]

theorem wfilter_tid_append_ne (ops : List WriteOp) (op : WriteOp) (t : Nat)
    (h : ¬op.tid = t) :
    (ops ++ [op]).filter (fun o => o.tid = t) =
      ops.filter (fun o => o.tid = t) := by
  rw [List.filter_append]
  simp [h]

theorem wfilter_bucket_append_eq (ops : List WriteOp) (op : WriteOp) (b : Nat)
    (h : op.bucket = b) :
    (ops ++ [op]).filter (fun o => o.bucket = b) =
      ops.filter (fun o => o.bucket = b) ++ [op] := by
  rw [List.filter_append]
  simp [h]

theorem wfilter_bucket_append_ne (ops : List WriteOp) (op : WriteOp) (b : Nat)
    (h : ¬op.bucket = b) :
    (ops ++ [op]).filter (fun o => o.bucket = b) =
      ops.filter (fun o => o.bucket = b) := by
  rw [List.filter_append]
  simp [h]

theorem threadRecords_append_eq (ops : List WriteOp) (op : WriteOp) (wpe t : Nat)
    (h : op.tid = t) :
    threadRecords (ops ++ [op]) wpe t =
      threadRecords ops wpe t ++ [op.edge.take wpe] := by
  unfold threadRecords
  rw [List.filter_append]
  simp [h]

theorem threadRecords_append_ne (ops : List WriteOp) (op : WriteOp) (wpe t : Nat)
    (h : ¬op.tid = t) :
    threadRecords (ops ++ [op]) wpe t = threadRecords ops wpe t := by
  unfold threadRecords
  rw [List.filter_append]
  simp [h]

/-- The writer invariant is preserved by every successful write call. -/
theorem write_inv (wpe B N : Nat) (ops : List WriteOp) (w : EdgeWriter)
    (inv : WriterInv wpe B N ops w) (op : WriteOp) (w2 : EdgeWriter)
    (hw : w.write op.edge op.bucket op.tid = some w2) :
    WriterInv wpe B N (ops ++ [op]) w2 := by
  have hlen_app : ∀ (l : List WriteOp) (x : WriteOp),
      (l ++ [x]).length = l.length + 1 := fun l x => by simp
  unfold EdgeWriter.write at hw
  by_cases hidx : op.bucket < w.p_rec.length ∧ op.tid < w.cur_bucket.length
  case neg =>
    rw [if_neg hidx] at hw
    exact Option.noConfusion hw
  rw [if_pos hidx] at hw
  obtain ⟨hbB2, htN2⟩ := hidx
  have hbB : op.bucket < B := by rw [← inv.len_prec]; exact hbB2
  have htN : op.tid < N := by rw [← inv.len_cb]; exact htN2
  have htC : op.tid < w.cur_num_edges.length := by rw [inv.len_cnt]; exact htN
  have htF : op.tid < w.file_contents.length := by rw [inv.len_files]; exact htN
  by_cases hne : (op.bucket : Int) ≠ w.cur_bucket.getD op.tid (-1)
  · rw [if_pos hne] at hw
    by_cases hun : (w.p_rec.getD op.bucket PartitionRecord.init).thread_id = -1
    case neg =>
      rw [if_neg hun] at hw
      exact Option.noConfusion hw
    rw [if_pos hun] at hw
    injection hw with hw
    subst hw
    have hold := inv.owned op.bucket hbB
    have hleft : (w.p_rec.getD op.bucket PartitionRecord.init).total_number = 0 ∧
        ops.filter (fun o => o.bucket = op.bucket) = [] := by
      rcases hold with ⟨_, h1, h2⟩ | ⟨t0, _, hown0, _⟩
      · exact ⟨h1, h2⟩
      · rw [hun] at hown0
        omega
    have hp2_self :
        (listModify (listModify w.p_rec op.bucket (fun pr =>
            { pr with thread_id := (op.tid : Int),
                      starting_offset := w.cur_num_edges.getD op.tid 0 }))
          op.bucket (fun pr =>
            { pr with total_number := pr.total_number + 1 })).getD op.bucket
          PartitionRecord.init =
        ⟨(op.tid : Int), w.cur_num_edges.getD op.tid 0,
          (w.p_rec.getD op.bucket PartitionRecord.init).total_number + 1⟩ := by
      rw [getD_listModify_eq _ _ _ _ (by rw [length_listModify]; exact hbB2),
        getD_listModify_eq _ _ _ _ hbB2]
    have hp2_other : ∀ b2, ¬op.bucket = b2 →
        (listModify (listModify w.p_rec op.bucket (fun pr =>
            { pr with thread_id := (op.tid : Int),
                      starting_offset := w.cur_num_edges.getD op.tid 0 }))
          op.bucket (fun pr =>
            { pr with total_number := pr.total_number + 1 })).getD b2
          PartitionRecord.init = w.p_rec.getD b2 PartitionRecord.init := by
      intro b2 hb2
      rw [getD_listModify_ne _ _ _ _ _ hb2, getD_listModify_ne _ _ _ _ _ hb2]
    have hcb2_self : (listModify w.cur_bucket op.tid
        (fun _ => (op.bucket : Int))).getD op.tid (-1) = (op.bucket : Int) := by
      rw [getD_listModify_eq _ _ _ _ htN2]
    have hcb2_other : ∀ t2, ¬op.tid = t2 →
        (listModify w.cur_bucket op.tid (fun _ => (op.bucket : Int))).getD t2
          (-1) = w.cur_bucket.getD t2 (-1) := by
      intro t2 ht2
      rw [getD_listModify_ne _ _ _ _ _ ht2]
    refine
      { hwpe := inv.hwpe, hN := inv.hN, hB := inv.hB, huns := inv.huns,
        hopen := inv.hopen, hinfo := inv.hinfo, hunc := inv.hunc,
        len_files := ?_, len_cb := ?_, len_cnt := ?_, len_prec := ?_,
        hops := ?_, file_eq := ?_, cnt_eq := ?_, cb_cases := ?_, owned := ?_ }
    · rw [length_listModify]; exact inv.len_files
    · rw [length_listModify]; exact inv.len_cb
    · rw [length_listModify]; exact inv.len_cnt
    · rw [length_listModify, length_listModify]; exact inv.len_prec
    · intro o ho
      rcases List.mem_append.1 ho with h | h
      · exact inv.hops o h
      · rcases List.mem_singleton.1 h with rfl
        exact ⟨htN, hbB⟩
    · intro t ht
      by_cases he : op.tid = t
      · subst he
        show (listModify w.file_contents op.tid _).getD op.tid [] = _
        rw [getD_listModify_eq _ _ _ _ htF,
          threadRecords_append_eq ops op wpe op.tid rfl, List.flatten_append,
          inv.file_eq op.tid ht]
        simp [inv.hwpe]
      · show (listModify w.file_contents op.tid _).getD t [] = _
        rw [getD_listModify_ne _ _ _ _ _ he,
          threadRecords_append_ne ops op wpe t he, inv.file_eq t ht]
    · intro t ht
      by_cases he : op.tid = t
      · subst he
        show (listModify w.cur_num_edges op.tid _).getD op.tid 0 = _
        rw [getD_listModify_eq _ _ _ _ htC,
          wfilter_tid_append_eq ops op op.tid rfl, hlen_app,
          inv.cnt_eq op.tid ht]
      · show (listModify w.cur_num_edges op.tid _).getD t 0 = _
        rw [getD_listModify_ne _ _ _ _ _ he,
          wfilter_tid_append_ne ops op t he, inv.cnt_eq t ht]
    · intro t ht
      by_cases he : op.tid = t
      · subst he
        right
        refine ⟨op.bucket, hbB, hcb2_self, ?_⟩
        rw [hp2_self]
      · rcases inv.cb_cases t ht with h | ⟨b0, hb0, hcur0, hown0⟩
        · left
          rw [hcb2_other t he]
          exact h
        · right
          have hb0ne : ¬op.bucket = b0 := by
            intro hh
            rw [← hh, hun] at hown0
            omega
          exact ⟨b0, hb0, by rw [hcb2_other t he]; exact hcur0,
            by rw [hp2_other b0 hb0ne]; exact hown0⟩
    · intro b2 hb2B
      by_cases hbeq : op.bucket = b2
      · subst hbeq
        right
        have hT := wfilter_tid_append_eq ops op op.tid rfl
        have hB2 := wfilter_bucket_append_eq ops op op.bucket rfl
        refine ⟨op.tid, htN, by rw [hp2_self], ?_, ?_, ?_, ?_⟩
        · rw [hp2_self, hB2, hT, hleft.2, hleft.1, inv.cnt_eq op.tid htN]
          rw [drop_append_le _ _ _ (le_refl _), List.drop_length]
          rfl
        · rw [hp2_self, hB2, hleft.2, hleft.1]
          rfl
        · rw [hp2_self, hT, hlen_app, hleft.1, inv.cnt_eq op.tid htN]
        · refine iff_of_true hcb2_self ?_
          rw [hp2_self, hT, hlen_app, hleft.1, inv.cnt_eq op.tid htN]
      · have hpres := hp2_other b2 hbeq
        have hB2 := wfilter_bucket_append_ne ops op b2 hbeq
        rcases inv.owned b2 hb2B with ⟨h1, h2, h3⟩ | ⟨t0, ht0, hown0, hslice0,
          htot0, hle0, hiff0⟩
        · left
          rw [hpres, hB2]
          exact ⟨h1, h2, h3⟩
        · right
          by_cases hteq : op.tid = t0
          · subst hteq
            have hT := wfilter_tid_append_eq ops op op.tid rfl
            refine ⟨op.tid, htN, by rw [hpres]; exact hown0, ?_, ?_, ?_, ?_⟩
            · rw [hpres, hB2, hT, drop_take_append _ _ _ _ hle0]
              exact hslice0
            · rw [hpres, hB2]
              exact htot0
            · rw [hpres, hT, hlen_app]
              omega
            · rw [hpres, hT, hlen_app]
              refine iff_of_false ?_ ?_
              · rw [hcb2_self]
                omega
              · omega
          · have hT := wfilter_tid_append_ne ops op t0 hteq
            refine ⟨t0, ht0, by rw [hpres]; exact hown0, ?_, ?_, ?_, ?_⟩
            · rw [hpres, hB2, hT]
              exact hslice0
            · rw [hpres, hB2]
              exact htot0
            · rw [hpres, hT]
              exact hle0
            · rw [hpres, hT, hcb2_other t0 hteq]
              exact hiff0
  · rw [if_neg hne] at hw
    injection hw with hw
    subst hw
    have heq : (op.bucket : Int) = w.cur_bucket.getD op.tid (-1) := not_not.mp hne
    have hown_self : (w.p_rec.getD op.bucket PartitionRecord.init).thread_id =
        (op.tid : Int) := by
      rcases inv.cb_cases op.tid htN with h | ⟨b0, hb0, hcur0, hown0⟩
      · rw [← heq] at h
        omega
      · have hbb : op.bucket = b0 := by
          rw [hcur0] at heq
          omega
        rw [hbb]
        exact hown0
    have hofacts := inv.owned op.bucket hbB
    obtain ⟨hs, htot, hle, hiff⟩ : ((ops.filter (fun o => o.tid = op.tid)).drop
          (w.p_rec.getD op.bucket PartitionRecord.init).starting_offset).take
          (w.p_rec.getD op.bucket PartitionRecord.init).total_number =
        ops.filter (fun o => o.bucket = op.bucket) ∧
        (w.p_rec.getD op.bucket PartitionRecord.init).total_number =
          (ops.filter (fun o => o.bucket = op.bucket)).length ∧
        (w.p_rec.getD op.bucket PartitionRecord.init).starting_offset +
            (w.p_rec.getD op.bucket PartitionRecord.init).total_number ≤
          (ops.filter (fun o => o.tid = op.tid)).length ∧
        (w.cur_bucket.getD op.tid (-1) = (op.bucket : Int) ↔
          (w.p_rec.getD op.bucket PartitionRecord.init).starting_offset +
              (w.p_rec.getD op.bucket PartitionRecord.init).total_number =
            (ops.filter (fun o => o.tid = op.tid)).length) := by
      rcases hofacts with ⟨hm1, _, _⟩ | ⟨t0, ht0, hown0, hs0, htot0, hle0, hiff0⟩
      · rw [hown_self] at hm1
        omega
      · have ht0e : t0 = op.tid := by
          rw [hown_self] at hown0
          omega
        subst ht0e
        exact ⟨hs0, htot0, hle0, hiff0⟩
    have hend : (w.p_rec.getD op.bucket PartitionRecord.init).starting_offset +
        (w.p_rec.getD op.bucket PartitionRecord.init).total_number =
        (ops.filter (fun o => o.tid = op.tid)).length := hiff.mp heq.symm
    have hp2_self : (listModify w.p_rec op.bucket (fun pr =>
        { pr with total_number := pr.total_number + 1 })).getD op.bucket
          PartitionRecord.init =
        { w.p_rec.getD op.bucket PartitionRecord.init with
          total_number :=
            (w.p_rec.getD op.bucket PartitionRecord.init).total_number + 1 } := by
      rw [getD_listModify_eq _ _ _ _ hbB2]
    have hp2_other : ∀ b2, ¬op.bucket = b2 →
        (listModify w.p_rec op.bucket (fun pr =>
          { pr with total_number := pr.total_number + 1 })).getD b2
          PartitionRecord.init = w.p_rec.getD b2 PartitionRecord.init := by
      intro b2 hb2
      rw [getD_listModify_ne _ _ _ _ _ hb2]
    have hdropT : (ops.filter (fun o => o.tid = op.tid)).drop
        (w.p_rec.getD op.bucket PartitionRecord.init).starting_offset =
        ops.filter (fun o => o.bucket = op.bucket) := by
      have hdl : ((ops.filter (fun o => o.tid = op.tid)).drop
          (w.p_rec.getD op.bucket PartitionRecord.init).starting_offset).length =
          (w.p_rec.getD op.bucket PartitionRecord.init).total_number := by
        rw [List.length_drop]
        omega
      conv_lhs => rw [← List.take_length ((ops.filter (fun o => o.tid = op.tid)).drop
        (w.p_rec.getD op.bucket PartitionRecord.init).starting_offset)]
      rw [hdl]
      exact hs
    refine
      { hwpe := inv.hwpe, hN := inv.hN, hB := inv.hB, huns := inv.huns,
        hopen := inv.hopen, hinfo := inv.hinfo, hunc := inv.hunc,
        len_files := ?_, len_cb := ?_, len_cnt := ?_, len_prec := ?_,
        hops := ?_, file_eq := ?_, cnt_eq := ?_, cb_cases := ?_, owned := ?_ }
    · rw [length_listModify]; exact inv.len_files
    · exact inv.len_cb
    · rw [length_listModify]; exact inv.len_cnt
    · rw [length_listModify]; exact inv.len_prec
    · intro o ho
      rcases List.mem_append.1 ho with h | h
      · exact inv.hops o h
      · rcases List.mem_singleton.1 h with rfl
        exact ⟨htN, hbB⟩
    · intro t ht
      by_cases he : op.tid = t
      · subst he
        show (listModify w.file_contents op.tid _).getD op.tid [] = _
        rw [getD_listModify_eq _ _ _ _ htF,
          threadRecords_append_eq ops op wpe op.tid rfl, List.flatten_append,
          inv.file_eq op.tid ht]
        simp [inv.hwpe]
      · show (listModify w.file_contents op.tid _).getD t [] = _
        rw [getD_listModify_ne _ _ _ _ _ he,
          threadRecords_append_ne ops op wpe t he, inv.file_eq t ht]
    · intro t ht
      by_cases he : op.tid = t
      · subst he
        show (listModify w.cur_num_edges op.tid _).getD op.tid 0 = _
        rw [getD_listModify_eq _ _ _ _ htC,
          wfilter_tid_append_eq ops op op.tid rfl, hlen_app,
          inv.cnt_eq op.tid ht]
      · show (listModify w.cur_num_edges op.tid _).getD t 0 = _
        rw [getD_listModify_ne _ _ _ _ _ he,
          wfilter_tid_append_ne ops op t he, inv.cnt_eq t ht]
    · intro t ht
      by_cases he : op.tid = t
      · subst he
        right
        refine ⟨op.bucket, hbB, heq.symm, ?_⟩
        rw [hp2_self]
        exact hown_self
      · rcases inv.cb_cases t ht with h | ⟨b0, hb0, hcur0, hown0⟩
        · left
          exact h
        · right
          have hb0ne : ¬op.bucket = b0 := by
            intro hh
            rw [← hh, hown_self] at hown0
            omega
          exact ⟨b0, hb0, hcur0, by rw [hp2_other b0 hb0ne]; exact hown0⟩
    · intro b2 hb2B
      by_cases hbeq : op.bucket = b2
      · subst hbeq
        right
        have hT := wfilter_tid_append_eq ops op op.tid rfl
        have hB2 := wfilter_bucket_append_eq ops op op.bucket rfl
        refine ⟨op.tid, htN, by rw [hp2_self]; exact hown_self, ?_, ?_, ?_, ?_⟩
        · rw [hp2_self, hB2, hT]
          show ((ops.filter (fun o => o.tid = op.tid) ++ [op]).drop
              (w.p_rec.getD op.bucket PartitionRecord.init).starting_offset).take
              ((w.p_rec.getD op.bucket PartitionRecord.init).total_number + 1) = _
          rw [drop_append_le _ _ _ (by omega), hdropT]
          have hlen2 : (ops.filter (fun o => o.bucket = op.bucket) ++
              [op]).length =
              (w.p_rec.getD op.bucket PartitionRecord.init).total_number + 1 := by
            rw [hlen_app]
            omega
          rw [← hlen2, List.take_length]
        · rw [hp2_self, hB2, hlen_app]
          show (w.p_rec.getD op.bucket PartitionRecord.init).total_number + 1 = _
          omega
        · rw [hp2_self, hT, hlen_app]
          show (w.p_rec.getD op.bucket PartitionRecord.init).starting_offset +
            ((w.p_rec.getD op.bucket PartitionRecord.init).total_number + 1) ≤ _
          omega
        · refine iff_of_true heq.symm ?_
          rw [hp2_self, hT, hlen_app]
          show (w.p_rec.getD op.bucket PartitionRecord.init).starting_offset +
            ((w.p_rec.getD op.bucket PartitionRecord.init).total_number + 1) = _
          omega
      · have hpres := hp2_other b2 hbeq
        have hB2 := wfilter_bucket_append_ne ops op b2 hbeq
        rcases inv.owned b2 hb2B with ⟨h1, h2, h3⟩ | ⟨t0, ht0, hown0, hslice0,
          htot0, hle0, hiff0⟩
        · left
          rw [hpres, hB2]
          exact ⟨h1, h2, h3⟩
        · right
          by_cases hteq : op.tid = t0
          · subst hteq
            have hT := wfilter_tid_append_eq ops op op.tid rfl
            refine ⟨op.tid, htN, by rw [hpres]; exact hown0, ?_, ?_, ?_, ?_⟩
            · rw [hpres, hB2, hT, drop_take_append _ _ _ _ hle0]
              exact hslice0
            · rw [hpres, hB2]
              exact htot0
            · rw [hpres, hT, hlen_app]
              omega
            · rw [hpres, hT, hlen_app]
              refine iff_of_false ?_ ?_
              · rw [← heq]
                omega
              · omega
          · have hT := wfilter_tid_append_ne ops op t0 hteq
            refine ⟨t0, ht0, by rw [hpres]; exact hown0, ?_, ?_, ?_, ?_⟩
            · rw [hpres, hB2, hT]
              exact hslice0
            · rw [hpres, hB2]
              exact htot0
            · rw [hpres, hT]
              exact hle0
            · rw [hpres, hT]
              exact hiff0

theorem runWrites_inv (wpe B N : Nat) : ∀ (rest pre : List WriteOp)
    (w wf : EdgeWriter), WriterInv wpe B N pre w → runWrites w rest = some wf →
    WriterInv wpe B N (pre ++ rest) wf := by
  intro rest
  induction rest with
  | nil =>
    intro pre w wf inv h
    simp only [runWrites] at h
    injection h with h
    subst h
    simpa using inv
  | cons op rest ih =>
    intro pre w wf inv h
    simp only [runWrites] at h
    rcases ho : w.write op.edge op.bucket op.tid with _ | w1
    · rw [ho] at h
      exact Option.noConfusion h
    · rw [ho] at h
      have inv1 := write_inv wpe B N pre w inv op w1 ho
      have hres := ih (pre ++ [op]) w1 wf inv1 h
      rw [List.append_assoc] at hres
      simpa using hres

theorem writer_init_inv (k N B : Nat) (w0 : EdgeWriter)
    (h : ((((EdgeWriter.new.set_kmer_size k).set_num_threads
        N).set_num_buckets B).init_files) = some w0) :
    WriterInv w0.words_per_edge B N [] w0 := by
  unfold EdgeWriter.init_files EdgeWriter.set_num_buckets
    EdgeWriter.set_num_threads EdgeWriter.set_kmer_size EdgeWriter.new at h
  injection h with h
  subst h
  refine
    { hwpe := rfl, hN := rfl, hB := rfl, huns := rfl, hopen := rfl,
      hinfo := rfl, hunc := rfl,
      len_files := by simp, len_cb := by simp, len_cnt := by simp,
      len_prec := by simp,
      hops := by intro o ho; simp at ho,
      file_eq := ?_, cnt_eq := ?_, cb_cases := ?_, owned := ?_ }
  · intro t ht
    rw [getD_replicate _ _ _ _ ht]
    rfl
  · intro t ht
    rw [getD_replicate _ _ _ _ ht]
    rfl
  · intro t ht
    left
    rw [getD_replicate _ _ _ _ ht]
  · intro b hb
    left
    rw [getD_replicate _ _ _ _ hb]
    exact ⟨rfl, rfl, rfl⟩

-- ========== helper lemmas: sorted expected output as a permutation ==========

theorem bucketRecords_cons_eq (op : WriteOp) (rest : List WriteOp) (wpe b : Nat)
    (h : op.bucket = b) :
    bucketRecords (op :: rest) wpe b =
      op.edge.take wpe :: bucketRecords rest wpe b := by
  unfold bucketRecords
  simp [List.filter_cons, h]

theorem bucketRecords_cons_ne (op : WriteOp) (rest : List WriteOp) (wpe b : Nat)
    (h : ¬op.bucket = b) :
    bucketRecords (op :: rest) wpe b = bucketRecords rest wpe b := by
  unfold bucketRecords
  simp [List.filter_cons, h]

theorem groupJoin_cons_skip (op : WriteOp) (rest : List WriteOp) (wpe B : Nat)
    (b : Nat) (hb : op.bucket < b) :
    groupJoin (op :: rest) wpe B b = groupJoin rest wpe B b := by
  by_cases hbB : b < B
  · conv_lhs => rw [groupJoin_eq]
    conv_rhs => rw [groupJoin_eq]
    rw [if_pos hbB, if_pos hbB, bucketRecords_cons_ne op rest wpe b (by omega),
      groupJoin_cons_skip op rest wpe B (b + 1) (by omega)]
  · conv_lhs => rw [groupJoin_eq]
    conv_rhs => rw [groupJoin_eq]
    rw [if_neg hbB, if_neg hbB]
termination_by B - b
decreasing_by simp_wf; omega

theorem groupJoin_cons_perm (op : WriteOp) (rest : List WriteOp) (wpe B : Nat)
    (b : Nat) (hb : b ≤ op.bucket) (hB : op.bucket < B) :
    (groupJoin (op :: rest) wpe B b).Perm
      (op.edge.take wpe :: groupJoin rest wpe B b) := by
  have hbB : b < B := by omega
  by_cases he : op.bucket = b
  · conv_lhs => rw [groupJoin_eq]
    rw [if_pos hbB, bucketRecords_cons_eq op rest wpe b he,
      groupJoin_cons_skip op rest wpe B (b + 1) (by omega)]
    conv_rhs => rw [groupJoin_eq]
    rw [if_pos hbB]
    exact List.Perm.refl _
  · conv_lhs => rw [groupJoin_eq]
    rw [if_pos hbB, bucketRecords_cons_ne op rest wpe b he]
    have ih := groupJoin_cons_perm op rest wpe B (b + 1) (by omega) hB
    refine List.Perm.trans (List.Perm.append_left _ ih) ?_
    refine List.Perm.trans List.perm_middle ?_
    have hrw : bucketRecords rest wpe b ++ groupJoin rest wpe B (b + 1) =
        groupJoin rest wpe B b := by
      conv_rhs => rw [groupJoin_eq]
      rw [if_pos hbB]
    rw [hrw]
termination_by B - b
decreasing_by simp_wf; omega

theorem groupJoin_nil (wpe B b : Nat) : groupJoin [] wpe B b = [] := by
  by_cases hb : b < B
  · rw [groupJoin_eq, if_pos hb, groupJoin_nil wpe B (b + 1)]
    rfl
  · rw [groupJoin_eq, if_neg hb]
termination_by B - b
decreasing_by simp_wf; omega

theorem groupJoin_perm (ops : List WriteOp) (wpe B : Nat)
    (h : ∀ op ∈ ops, op.bucket < B) :
    (groupJoin ops wpe B 0).Perm (ops.map (fun op => op.edge.take wpe)) := by
  induction ops with
  | nil => rw [groupJoin_nil]; rfl
  | cons op rest ih =>
    have h1 := groupJoin_cons_perm op rest wpe B 0 (by omega) (h op (by simp))
    refine h1.trans ?_
    exact List.Perm.cons _ (ih (fun o ho => h o (by simp [ho])))

theorem threadRecords_length_wpe (ops : List WriteOp) (wpe t : Nat)
    (hlen : ∀ op ∈ ops, op.edge.length = wpe) :
    ∀ x ∈ threadRecords ops wpe t, x.length = wpe := by
  intro x hx
  unfold threadRecords at hx
  rcases List.mem_map.1 hx with ⟨op, hop, rfl⟩
  have := hlen op (List.mem_of_mem_filter hop)
  rw [List.length_take, this]
  omega

theorem threadRecords_length_count (ops : List WriteOp) (wpe t : Nat) :
    (threadRecords ops wpe t).length =
      (ops.filter (fun o => o.tid = t)).length := by
  unfold threadRecords
  rw [List.length_map]

/-- In any state reached by a successful run, an owned bucket reads back, from
the contiguous run of its owner file starting at the recorded offset, exactly
the records written to it, in order. -/
theorem inv_bucket_file_run (wpe B N : Nat) (ops : List WriteOp)
    (wf : EdgeWriter) (inv : WriterInv wpe B N ops wf)
    (hlen : ∀ op ∈ ops, op.edge.length = wpe)
    (b : Nat) (hb : b < B) (t : Nat)
    (hown : (wf.p_rec.getD b PartitionRecord.init).thread_id = (t : Int)) :
    t < N ∧
    readRun (wf.file_contents.getD t []) wpe
      (wpe * (wf.p_rec.getD b PartitionRecord.init).starting_offset)
      (wf.p_rec.getD b PartitionRecord.init).total_number =
      bucketRecords ops wpe b ∧
    (wf.p_rec.getD b PartitionRecord.init).starting_offset +
      (wf.p_rec.getD b PartitionRecord.init).total_number ≤
      (ops.filter (fun o => o.tid = t)).length := by
  rcases inv.owned b hb with ⟨h1, _, _⟩ | ⟨t0, ht0, hown0, hslice0, htot0, hle0, _⟩
  · rw [h1] at hown
    omega
  · have ht0e : t0 = t := by
      rw [hown0] at hown
      omega
    subst ht0e
    refine ⟨ht0, ?_, hle0⟩
    rw [inv.file_eq t0 ht0]
    rw [readRun_flatten_slice wpe _ _ _ (threadRecords_length_wpe ops wpe t0 hlen)
      (by rw [threadRecords_length_count]; omega)]
    unfold threadRecords bucketRecords
    rw [← List.map_drop, ← List.map_take, hslice0]

theorem bucketsFrom_eq_groupJoin (p : List PartitionRecord)
    (mm : List (List Word)) (wpe B : Nat) (ops : List WriteOp)
    (hlenp : p.length = B)
    (hrunb : ∀ b, b < B → bucketRun p mm wpe b = bucketRecords ops wpe b)
    (b : Nat) : bucketsFrom p mm wpe b = groupJoin ops wpe B b := by
  by_cases hb : b < B
  · rw [bucketsFrom_eq, if_pos (by rw [hlenp]; exact hb), groupJoin_eq,
      if_pos hb, hrunb b hb,
      bucketsFrom_eq_groupJoin p mm wpe B ops hlenp hrunb (b + 1)]
  · rw [bucketsFrom_eq, if_neg (by rw [hlenp]; exact hb), groupJoin_eq,
      if_neg hb]
termination_by B - b
decreasing_by simp_wf; omega

theorem length_partition_by_bucket (B : Nat) (l : List WriteOp)
    (hl : ∀ o ∈ l, o.bucket < B) :
    l.length = sumOver B (fun b => (l.filter (fun o => o.bucket = b)).length) := by
  induction l with
  | nil =>
    rw [sumOver_congr B _ (fun _ => 0) (fun i _ => by simp), sumOver_const_zero]
    rfl
  | cons o l ih =>
    have hoB : o.bucket < B := hl o (by simp)
    have hstep : ∀ b, b < B →
        ((o :: l).filter (fun x => x.bucket = b)).length =
        (if o.bucket = b then 1 else 0) +
          (l.filter (fun x => x.bucket = b)).length := by
      intro b _
      rw [List.filter_cons]
      by_cases hob : o.bucket = b
      · simp [hob]
        omega
      · simp [hob]
    calc (o :: l).length = l.length + 1 := by rw [List.length_cons]
      _ = sumOver B (fun b => (l.filter (fun x => x.bucket = b)).length) + 1 := by
          rw [ih (fun x hx => hl x (by simp [hx]))]
      _ = 1 + sumOver B (fun b => (l.filter (fun x => x.bucket = b)).length) := by
          omega
      _ = sumOver B (fun b => if o.bucket = b then 1 else 0) +
          sumOver B (fun b => (l.filter (fun x => x.bucket = b)).length) := by
          rw [sumOver_indicator B o.bucket 1 hoB]
      _ = sumOver B (fun b => (if o.bucket = b then 1 else 0) +
          (l.filter (fun x => x.bucket = b)).length) :=
          (sumOver_add B _ _).symm
      _ = sumOver B (fun b => ((o :: l).filter (fun x => x.bucket = b)).length) :=
          (sumOver_congr B _ _ hstep).symm

/-- The per-thread file sizes the reader accumulates from the partition records
are exactly the per-thread record counts of the write history. -/
theorem sorted_sizes (wpe B N : Nat) (ops : List WriteOp) (wf : EdgeWriter)
    (inv : WriterInv wpe B N ops wf) (t : Nat) (ht : t < N) :
    (wf.p_rec.foldl (fun fs pr => listAddAt fs pr.thread_id pr.total_number)
      (List.replicate N 0)).getD t 0 =
      (ops.filter (fun o => o.tid = t)).length := by
  rw [foldl_addAt_getD _ _ t (by rw [List.length_replicate]; exact ht),
    getD_replicate _ _ _ _ ht, map_sum_eq_sumOver, inv.len_prec]
  have hpoint : ∀ b, b < B →
      (if (wf.p_rec.getD b PartitionRecord.init).thread_id = (t : Int) then
        (wf.p_rec.getD b PartitionRecord.init).total_number else 0) =
      ((ops.filter (fun o => o.tid = t)).filter
        (fun o => o.bucket = b)).length := by
    intro b hb
    rcases inv.owned b hb with ⟨h1, h2, h3⟩ | ⟨t0, ht0, hown0, hslice0, htot0,
      hle0, hiff0⟩
    · rw [if_neg (by rw [h1]; omega)]
      symm
      rw [List.length_eq_zero]
      refine List.filter_eq_nil.mpr ?_
      intro o ho
      simp only [decide_eq_true_eq]
      intro hob
      have hmem : o ∈ ops.filter (fun x => x.bucket = b) :=
        List.mem_filter.mpr ⟨List.mem_of_mem_filter ho, by simp [hob]⟩
      rw [h3] at hmem
      simp at hmem
    · by_cases hte : t0 = t
      · subst hte
        rw [if_pos hown0, htot0]
        have hmem : ∀ o ∈ ops.filter (fun x => x.bucket = b), o.tid = t0 := by
          intro o ho
        
          rw [← hslice0] at ho
          have h5 := List.mem_of_mem_drop (List.mem_of_mem_take ho)
          simpa using (List.mem_filter.mp h5).2
        have hself : (ops.filter (fun x => x.bucket = b)).filter
            (fun x => x.tid = t0) = ops.filter (fun x => x.bucket = b) :=
          List.filter_eq_self.mpr (fun o ho => by simp [hmem o ho])
        rw [List.filter_comm, hself]
      · rw [if_neg (by rw [hown0]; omega)]
        symm
        rw [List.length_eq_zero]
        refine List.filter_eq_nil.mpr ?_
        intro o ho
        simp only [decide_eq_true_eq]
        intro hob
        have hot : o.tid = t := by simpa using (List.mem_filter.mp ho).2
        have hmem : o ∈ ops.filter (fun x => x.bucket = b) :=
          List.mem_filter.mpr ⟨List.mem_of_mem_filter ho, by simp [hob]⟩
        rw [← hslice0] at hmem
        have h5 := List.mem_of_mem_drop (List.mem_of_mem_take hmem)
        have hot0 : o.tid = t0 := by simpa using (List.mem_filter.mp h5).2
        omega
  rw [sumOver_congr B _ _ hpoint,
    ← length_partition_by_bucket B _
      (fun o ho => (inv.hops o (List.mem_of_mem_filter ho)).2)]
  omega

/-- C1: a sorted store written by any run of write calls that completes without a
contract violation reads back, via read_info / init_files / repeated
NextSortedEdge, as the records grouped by ascending bucket id (buckets never
written, hence unowned, contribute nothing), each bucket in its original write
order, followed by the null sentinel; the whole output is a permutation of the
multiset written. -/
theorem c1_sorted_round_trip (k N B : Nat) (ops : List WriteOp)
    (w0 wf : EdgeWriter) (hB : 0 < B)
    (hw0 : ((((EdgeWriter.new.set_kmer_size k).set_num_threads
      N).set_num_buckets B).init_files) = some w0)
    (hlen : ∀ op ∈ ops, op.edge.length = w0.words_per_edge)
    (hrun : runWrites w0 ops = some wf) :
    ∃ info rd,
      (wf.destroy).info_file = some info ∧
      (EdgeReader.new.read_info info).bind
        (fun r1 => r1.init_files (wf.destroy).file_contents) = some rd ∧
      (∀ fuel, (groupJoin ops w0.words_per_edge B 0).length < fuel →
        readAllSorted rd fuel = groupJoin ops w0.words_per_edge B 0) ∧
      (groupJoin ops w0.words_per_edge B 0).Perm
        (ops.map (fun op => op.edge.take w0.words_per_edge)) := by
  have inv0 := writer_init_inv k N B w0 hw0
  have inv := runWrites_inv w0.words_per_edge B N ops [] w0 wf inv0 hrun
  rw [List.nil_append] at inv
  have hdest : wf.destroy = { wf with
      info_file := some ⟨wf.kmer_size, wf.words_per_edge, wf.num_threads,
        wf.num_buckets, (wf.p_rec.map PartitionRecord.total_number).sum,
        wf.p_rec, wf.num_unsorted_edges⟩,
      cur_bucket := [], cur_num_edges := [], p_rec := [],
      is_opened := false } := by
    unfold EdgeWriter.destroy
    rw [if_pos inv.hopen]
    simp only [inv.huns]
    rfl
  have hinfo : (wf.destroy).info_file = some
      ⟨wf.kmer_size, w0.words_per_edge, N, B,
        (wf.p_rec.map PartitionRecord.total_number).sum, wf.p_rec, []⟩ := by
    rw [hdest]
    show some _ = some _
    rw [inv.hwpe, inv.hN, inv.hB, inv.hunc]
  obtain ⟨rd1, hrd1⟩ := read_info_some EdgeReader.new
    ⟨wf.kmer_size, w0.words_per_edge, N, B,
      (wf.p_rec.map PartitionRecord.total_number).sum, wf.p_rec, []⟩
    ⟨inv.len_prec, fun h0 => absurd h0 (show ¬B = 0 by omega)⟩
  obtain ⟨hr_wpe, hr_nf, hr_nb, hr_prec, hr_open, hr_sizes⟩ :=
    read_info_fields _ _ _ hrd1
  obtain ⟨rd2, hrd2⟩ := init_files_some rd1 (wf.destroy).file_contents
    (by rw [hr_open]; rfl)
  obtain ⟨hm_mm, hm_cnt, hm_vol, hm_cb, hm_cf, hm_prec, hm_wpe, hm_nf, hm_nb,
    hm_sizes⟩ := init_files_fields _ _ _ hrd2
  have hnb1 : rd1.num_buckets = B := hr_nb
  have hnf1 : rd1.num_files = N := hr_nf
  have hwpe1 : rd1.words_per_edge = w0.words_per_edge := hr_wpe
  have hprec1 : rd1.p_rec = wf.p_rec := hr_prec
  have hnb2 : rd2.num_buckets = B := by rw [hm_nb, hnb1]
  have hwpe2 : rd2.words_per_edge = w0.words_per_edge := by rw [hm_wpe, hwpe1]
  have hprec2 : rd2.p_rec = wf.p_rec := by rw [hm_prec, hprec1]
  have hsizes1 : rd1.file_sizes = wf.p_rec.foldl
      (fun fs pr => listAddAt fs pr.thread_id pr.total_number)
      (List.replicate N 0) := by
    rw [hr_sizes, if_neg (show ¬B = 0 by omega)]
  have hdisk : (wf.destroy).file_contents = wf.file_contents := by rw [hdest]
  have hmmp : ∀ t, t < N → rd2.mmaps.getD t [] =
      (threadRecords ops w0.words_per_edge t).flatten := by
    intro t ht
    rw [hm_mm, getD_range_map rd1.num_files t _ []
      (show t < rd1.num_files by rw [hnf1]; exact ht)]
    rw [hdisk, hwpe1, inv.file_eq t ht]
    have hsz1 : rd1.file_sizes.getD t 0 =
        (ops.filter (fun o => o.tid = t)).length := by
      rw [hsizes1]
      exact sorted_sizes w0.words_per_edge B N ops wf inv t ht
    rw [hsz1]
    have hmc : (ops.filter (fun o => o.tid = t)).length * w0.words_per_edge =
        ((threadRecords ops w0.words_per_edge t).flatten).length := by
      rw [flatten_length_const w0.words_per_edge _
        (threadRecords_length_wpe ops w0.words_per_edge t hlen),
        threadRecords_length_count]
      ring
    rw [hmc, List.take_length]
  have hrunb : ∀ b, b < B →
      bucketRun rd2.p_rec rd2.mmaps rd2.words_per_edge b =
      bucketRecords ops w0.words_per_edge b := by
    intro b hb
    unfold bucketRun
    simp only
    rw [hprec2, hwpe2]
    rcases inv.owned b hb with ⟨h1, h2, h3⟩ | ⟨t0, ht0, hown0, _, _, _, _⟩
    · rw [if_neg (by rw [h1]; omega)]
      unfold bucketRecords
      rw [h3]
      rfl
    · rw [if_pos (by rw [hown0]; omega)]
      have htn : (wf.p_rec.getD b PartitionRecord.init).thread_id.toNat = t0 := by
        rw [hown0]
        rfl
      rw [htn, hmmp t0 ht0]
      have hb2 := inv_bucket_file_run w0.words_per_edge B N ops wf inv hlen b hb
        t0 hown0
      rw [← inv.file_eq t0 ht0]
      exact hb2.2.1
  have hok : SortedOk rd2 :=
    ⟨by rw [hnb2, hprec2, inv.len_prec],
     Or.inl ⟨by rw [hm_vol, hm_cnt], by rw [hm_cb]⟩⟩
  have hrem : sortedRemaining rd2 =
      bucketsFrom rd2.p_rec rd2.mmaps rd2.words_per_edge 0 := by
    unfold sortedRemaining
    rw [if_neg (by rw [hnb2, hm_cb]; omega), if_pos (by rw [hm_vol, hm_cnt])]
    have ht0 : (rd2.cur_bucket + 1).toNat = 0 := by rw [hm_cb]; rfl
    rw [ht0]
  have hremG : sortedRemaining rd2 = groupJoin ops w0.words_per_edge B 0 := by
    rw [hrem, hwpe2]
    refine bucketsFrom_eq_groupJoin rd2.p_rec rd2.mmaps w0.words_per_edge B ops
      (by rw [hprec2]; exact inv.len_prec) ?_ 0
    intro b hb
    have := hrunb b hb
    rwa [hwpe2] at this
  refine ⟨_, rd2, hinfo, ?_, ?_, ?_⟩
  · rw [hrd1]
    exact hrd2
  · intro fuel hfuel
    rw [readAll_sorted_of_ok fuel rd2 hok (by rw [hremG]; exact hfuel), hremG]
  · exact groupJoin_perm ops w0.words_per_edge B (fun op hop => (inv.hops op hop).2)

/-- Witness for C1: the concrete sorted store with two threads, three buckets
and four written edges reads back grouped by bucket (bucket 0 then 1 then 2)
and is a permutation of the writes. -/
theorem c1_sorted_round_trip_witness :
    groupJoin witnessOps witnessWriter0.words_per_edge 3 0 =
      [[1, 2], [3, 4], [7, 8], [5, 6]] ∧
    (∃ info rd,
      (witnessWriter.destroy).info_file = some info ∧
      (EdgeReader.new.read_info info).bind
        (fun r1 => r1.init_files (witnessWriter.destroy).file_contents) =
        some rd ∧
      (∀ fuel,
        (groupJoin witnessOps witnessWriter0.words_per_edge 3 0).length <
          fuel →
        readAllSorted rd fuel =
          groupJoin witnessOps witnessWriter0.words_per_edge 3 0) ∧
      (groupJoin witnessOps witnessWriter0.words_per_edge 3 0).Perm
        (witnessOps.map
          (fun op => op.edge.take witnessWriter0.words_per_edge))) :=
  ⟨by decide,
   c1_sorted_round_trip 21 2 3 witnessOps witnessWriter0 witnessWriter
     (by decide) rfl (by decide) rfl⟩

/-- C10: write fails its assertion exactly when the target bucket differs from
the calling thread current bucket and is already owned by any thread (the
calling thread included), and in every write sequence completing without such
a failure each owned bucket records form one contiguous run inside the owning
thread file, starting at the recorded starting offset. -/
theorem c10_write_strict_and_contiguous (k N B : Nat) (ops : List WriteOp)
    (w0 wf : EdgeWriter)
    (hw0 : ((((EdgeWriter.new.set_kmer_size k).set_num_threads
      N).set_num_buckets B).init_files) = some w0)
    (hlen : ∀ op ∈ ops, op.edge.length = w0.words_per_edge)
    (hrun : runWrites w0 ops = some wf) :
    (∀ (w : EdgeWriter) (edge : List Word) (bucket tid : Nat),
      bucket < w.p_rec.length → tid < w.cur_bucket.length →
      (bucket : Int) ≠ w.cur_bucket.getD tid (-1) →
      (w.p_rec.getD bucket PartitionRecord.init).thread_id ≠ -1 →
      w.write edge bucket tid = none) ∧
    (∀ b, b < B →
      (wf.p_rec.getD b PartitionRecord.init).thread_id ≠ -1 →
      ∃ t : Nat, t < N ∧
        (wf.p_rec.getD b PartitionRecord.init).thread_id = (t : Int) ∧
        readRun (wf.file_contents.getD t []) w0.words_per_edge
          (w0.words_per_edge *
            (wf.p_rec.getD b PartitionRecord.init).starting_offset)
          (wf.p_rec.getD b PartitionRecord.init).total_number =
        bucketRecords ops w0.words_per_edge b) := by
  constructor
  · intro w edge bucket tid h1 h2 h3 h4
    unfold EdgeWriter.write
    rw [if_pos ⟨h1, h2⟩, if_pos h3, if_neg h4]
    rfl
  · intro b hb hown
    have inv0 := writer_init_inv k N B w0 hw0
    have inv := runWrites_inv w0.words_per_edge B N ops [] w0 wf inv0 hrun
    rw [List.nil_append] at inv
    rcases inv.owned b hb with ⟨h1, _, _⟩ | ⟨t0, ht0, hown0, _, _, _, _⟩
    · exact absurd h1 hown
    · have hb2 := inv_bucket_file_run w0.words_per_edge B N ops wf inv hlen b
        hb t0 hown0
      exact ⟨t0, ht0, hown0, hb2.2.1⟩

/-- Witness for C10: in the concrete run, thread 0 has moved on from bucket 0
to bucket 1, so a fresh write by thread 0 itself into its own earlier bucket 0
fails; and bucket 0 records sit contiguously at the start of thread 0 file. -/
theorem c10_write_strict_and_contiguous_witness :
    witnessWriter.write [9, 9] 0 0 = none ∧
    (∃ t : Nat, t < 2 ∧
      (witnessWriter.p_rec.getD 0 PartitionRecord.init).thread_id = (t : Int) ∧
      readRun (witnessWriter.file_contents.getD t [])
        witnessWriter0.words_per_edge
        (witnessWriter0.words_per_edge *
          (witnessWriter.p_rec.getD 0 PartitionRecord.init).starting_offset)
        (witnessWriter.p_rec.getD 0 PartitionRecord.init).total_number =
      bucketRecords witnessOps witnessWriter0.words_per_edge 0) := by
  have h := c10_write_strict_and_contiguous 21 2 3 witnessOps witnessWriter0
    witnessWriter rfl (by decide) rfl
  exact ⟨h.1 witnessWriter [9, 9] 0 0 (by decide) (by decide) (by decide)
    (by decide), h.2 0 (by decide) (by decide)⟩
